import Mathlib

/-!
# fsnotify2: the inotify notifier and the watcher dispatch loop

A shallow embedding of `inotify.go` and `fsnotify.go`.

* Go maps are association lists with one pair per key (`GoMap`).
* `uint32` values are natural numbers, reduced modulo `2 ^ 32` where the
  source converts (`uint32(wd)`).
* Go strings are `String`; a byte `b` of a Go byte string is the character
  `Char.ofNat b`.
* The kernel is an oracle answering each system call from the log of the
  calls issued so far, so that every call may be answered independently.
  The notifier state carries that log.
* `filepath.Clean` and `filepath.Join` belong to the Go standard library and
  are parameters (`clean`, `join`) of the operations that call them;
  `filepath.WalkDir` is modelled after its source, on a finite file tree.
* The loop of `Read` and the recursion of `AddWatchRecursive` carry a fuel;
  `Read` never exhausts its own (`Read_finishes`), and the depth of the tree
  is fuel enough for `AddWatchRecursive`.
-/

namespace Fsnotify

/-! ## Go maps -/

/-- A Go map, as an association list. -/
abbrev GoMap (κ ν : Type) := List (κ × ν)

/-- The lookup `v, ok := m[k]`: `none` stands for `ok == false`. -/
def GoMap.get {κ ν : Type} [DecidableEq κ] : GoMap κ ν → κ → Option ν
  | [], _ => none
  | (k', v) :: rest, k => if k' = k then some v else GoMap.get rest k

/-- The statement `delete(m, k)`. -/
def GoMap.delete {κ ν : Type} [DecidableEq κ] : GoMap κ ν → κ → GoMap κ ν
  | [], _ => []
  | (k', v) :: rest, k =>
    if k' = k then GoMap.delete rest k else (k', v) :: GoMap.delete rest k

/-- The assignment `m[k] = v`. -/
def GoMap.set {κ ν : Type} [DecidableEq κ] (m : GoMap κ ν) (k : κ) (v : ν) : GoMap κ ν :=
  (k, v) :: GoMap.delete m k

/-! ## Constants of `golang.org/x/sys/unix` (linux) and of `fsnotify.go` -/

/-- The constant `MaxEvents` of `fsnotify.go`. -/
def MaxEvents : Nat := 4096

/-- The constant `unix.SizeofInotifyEvent`. -/
def SizeofInotifyEvent : Nat := 16

/-- The constant `unix.PathMax`. -/
def PathMax : Nat := 4096

/-- The constant `unix.IN_ALL_EVENTS`. -/
def IN_ALL_EVENTS : Nat := 0xfff

/-- The constant `unix.IN_DELETE_SELF`. -/
def IN_DELETE_SELF : Nat := 0x400

/-- The constant `unix.IN_Q_OVERFLOW`. -/
def IN_Q_OVERFLOW : Nat := 0x4000

/-- The constant `unix.IN_IGNORED`. -/
def IN_IGNORED : Nat := 0x8000

/-- The constant `unix.IN_CREATE`. -/
def IN_CREATE : Nat := 0x100

/-- The conversion `uint32(x)` of a non-negative integer. -/
def toUint32 (x : Nat) : Nat := x % 2 ^ 32

/-! ## Errors, events, kernel -/

/-- Go `error` values met in the two files. -/
inductive Err where
  /-- An error returned by a system call. -/
  | errno (code : Nat)
  /-- The value of `fmt.Errorf("inotify: short read")`. -/
  | shortRead
  /-- The variable `ErrEventOverflow`. -/
  | eventOverflow
  /-- The value of `fmt.Errorf("error accessing path: %s error: %v", path, err)`. -/
  | accessing (path : String) (cause : Err)
  /-- The value of `fmt.Errorf("failed to watch %s, err: %v", path, err)`. -/
  | failedToWatch (path : String) (cause : Err)
  deriving DecidableEq, Repr

/-- The struct `Event` of `events.go`. -/
structure Event where
  Name : String
  Op : Nat
  deriving DecidableEq, Repr

/-- A system call issued by the notifier. -/
inductive Syscall where
  | inotifyAddWatch (name : String) (flags : Nat)
  | inotifyRmWatch (wd : Nat)
  | read
  | close
  deriving DecidableEq, Repr

/-- The kernel: each answer may depend on every call issued before. -/
structure Kernel where
  inotifyAddWatch : List Syscall → String → Nat → Except Nat Nat
  inotifyRmWatch : List Syscall → Nat → Option Nat
  read : List Syscall → Except Nat (List Nat)
  close : List Syscall → Option Nat

/-- The struct `inotify`: the two tables, and the calls issued so far. -/
structure Inotify where
  watches : GoMap String Nat
  rwatches : GoMap Nat String
  log : List Syscall
  deriving DecidableEq, Repr

/-- The state built by `NewNotifier`. -/
def NewNotifier : Inotify := { watches := [], rwatches := [], log := [] }

/-! ## `AddWatch` and `RemoveWatch` -/

/-- The method `inotify.AddWatch`. -/
def AddWatch (clean : String → String) (k : Kernel) (i : Inotify) (name : String)
    (flags : Nat) : Option Err × Inotify :=
  let name := clean name
  let flags := if flags = 0 then IN_ALL_EVENTS else flags
  let i1 := { i with log := i.log ++ [Syscall.inotifyAddWatch name flags] }
  match k.inotifyAddWatch i.log name flags with
  | .error e => (some (Err.errno e), i1)
  | .ok wd =>
    (none, { i1 with watches := i1.watches.set name (toUint32 wd),
                     rwatches := i1.rwatches.set (toUint32 wd) name })

/-- The method `inotify.RemoveWatch`. -/
def RemoveWatch (clean : String → String) (k : Kernel) (i : Inotify) (name : String) :
    Option Err × Inotify :=
  let name := clean name
  match i.watches.get name with
  | none => (none, i)
  | some wd =>
    let i1 := { i with log := i.log ++ [Syscall.inotifyRmWatch wd] }
    match k.inotifyRmWatch i.log wd with
    | some e => (some (Err.errno e), i1)
    | none =>
      (none, { i1 with watches := i1.watches.delete name,
                       rwatches := i1.rwatches.delete wd })

/-- The two tables agree: `p ↦ wd` forward exactly when `wd ↦ p` backward. -/
def Consistent (i : Inotify) : Prop :=
  ∀ (p : String) (wd : Nat), i.watches.get p = some wd ↔ i.rwatches.get wd = some p

/-- A call made by the user of the notifier. -/
inductive Call where
  | add (name : String) (flags : Nat)
  | remove (name : String)
  deriving DecidableEq, Repr

/-- One user call applied to the notifier. -/
def applyCall (clean : String → String) (k : Kernel) (i : Inotify) : Call → Inotify
  | .add name flags => (AddWatch clean k i name flags).2
  | .remove name => (RemoveWatch clean k i name).2

/-- A sequence of user calls applied in order. -/
def runCalls (clean : String → String) (k : Kernel) : Inotify → List Call → Inotify
  | i, [] => i
  | i, c :: rest => runCalls clean k (applyCall clean k i c) rest

/-- The identifier `wd` the kernel returns for `name` is the one the tables
hold for `name`, or `name` has none and `wd` is not in use. -/
def IdAllowed (i : Inotify) (name : String) (wd : Nat) : Prop :=
  i.watches.get name = some (toUint32 wd) ∨
    (i.watches.get name = none ∧ i.rwatches.get (toUint32 wd) = none)

instance (i : Inotify) (name : String) (wd : Nat) : Decidable (IdAllowed i name wd) :=
  inferInstanceAs (Decidable (_ ∨ _))

/-- The answer of the kernel to `inotify_add_watch` is an error or an allowed
identifier. -/
def ReplyAllowed (i : Inotify) (name : String) : Except Nat Nat → Prop
  | .ok wd => IdAllowed i name wd
  | .error _ => True

instance (i : Inotify) (name : String) : (r : Except Nat Nat) → Decidable (ReplyAllowed i name r)
  | .ok wd => inferInstanceAs (Decidable (IdAllowed i name wd))
  | .error _ => isTrue trivial

/-- Along the calls, every identifier the kernel returns is allowed. -/
def IdsAllowed (clean : String → String) (k : Kernel) : Inotify → List Call → Prop
  | _, [] => True
  | i, .add name flags :: rest =>
    ReplyAllowed i (clean name)
      (k.inotifyAddWatch i.log (clean name) (if flags = 0 then IN_ALL_EVENTS else flags)) ∧
    IdsAllowed clean k (applyCall clean k i (.add name flags)) rest
  | i, .remove name :: rest => IdsAllowed clean k (applyCall clean k i (.remove name)) rest

instance decIdsAllowed (clean : String → String) (k : Kernel) :
    (i : Inotify) → (calls : List Call) → Decidable (IdsAllowed clean k i calls)
  | _, [] => isTrue trivial
  | i, .add name flags :: rest =>
    @instDecidableAnd _ _ inferInstance
      (decIdsAllowed clean k (applyCall clean k i (.add name flags)) rest)
  | i, .remove name :: rest => decIdsAllowed clean k (applyCall clean k i (.remove name)) rest

/-! ## `Read` -/

/-- Length of the array `buf` of `Read`. -/
def bufLen : Nat := SizeofInotifyEvent * MaxEvents

/-- The `uint32` stored at `offset`, in the byte order of the supported
targets (little-endian); a byte the kernel did not write is zero. -/
def u32At (data : List Nat) (offset : Nat) : Nat :=
  data.getD offset 0 + 2 ^ 8 * data.getD (offset + 1) 0
    + 2 ^ 16 * data.getD (offset + 2) 0 + 2 ^ 24 * data.getD (offset + 3) 0

/-- The `len` bytes of `buf` from `offset` on: the array is zero when `Read`
starts, so what the kernel did not write is zero. -/
def bufSlice (data : List Nat) (offset len : Nat) : List Nat :=
  (List.range len).map (fun j => data.getD (offset + j) 0)

/-- The conversion `string(bytes)`. -/
def goString (bytes : List Nat) : String := String.mk (bytes.map Char.ofNat)

/-- The function `strings.TrimRight`. -/
def TrimRight (s cutset : String) : String :=
  String.mk (s.data.reverse.dropWhile (fun c => decide (c ∈ cutset.data))).reverse

/-- What a call of `Read` does. -/
inductive ReadOutcome where
  /-- The return of `events, nil`. -/
  | ok (events : List Event)
  /-- The return of `nil, err`. -/
  | fail (e : Err)
  /-- A run-time panic: index or slice bound out of range. -/
  | panic
  /-- The name is read through the unsafe pointer from memory past `buf`. -/
  | pastBuf
  /-- The loop was cut short by the model. -/
  | unfinished
  deriving DecidableEq, Repr

/-- The `Name` of the event when `nameLen > 0` (lines 169-174). -/
def appendName (data : List Nat) (offset nameLen : Nat) (name : String) :
    Except ReadOutcome String :=
  if bufLen ≤ offset + SizeofInotifyEvent then .error .panic
  else if PathMax < nameLen then .error .panic
  else if bufLen < offset + SizeofInotifyEvent + nameLen then .error .pastBuf
  else .ok (name ++ "/" ++
    TrimRight (goString (bufSlice data (offset + SizeofInotifyEvent) nameLen)) "\x00")

/-- The tables after lines 156-167. -/
def selfDelete (i : Inotify) (wd mask : Nat) : Inotify :=
  match i.rwatches.get wd with
  | some name =>
    if mask &&& IN_DELETE_SELF = IN_DELETE_SELF then
      { i with rwatches := i.rwatches.delete wd, watches := i.watches.delete name }
    else i
  | none => i

/-- The loop of `Read` (lines 141-180), `fuel` bounding its iterations. -/
def decodeLoop (data : List Nat) : Nat → Nat → Inotify → List Event → ReadOutcome × Inotify
  | 0, _, i, _ => (.unfinished, i)
  | fuel + 1, offset, i, events =>
    if offset + SizeofInotifyEvent ≤ data.length then
      let wd := u32At data offset
      let mask := u32At data (offset + 4)
      let nameLen := u32At data (offset + 12)
      if mask &&& IN_Q_OVERFLOW ≠ 0 then (.fail .eventOverflow, i)
      else
        let name := (i.rwatches.get wd).getD ""
        let i1 := selfDelete i wd mask
        let name' := if nameLen > 0 then appendName data offset nameLen name else .ok name
        match name' with
        | .error o => (o, i1)
        | .ok nm =>
          decodeLoop data fuel (offset + SizeofInotifyEvent + nameLen) i1
            (events ++ [{ Name := nm, Op := mask }])
    else (.ok events, i)

/-- The method `inotify.Read`. -/
def Read (k : Kernel) (i : Inotify) : ReadOutcome × Inotify :=
  let i1 := { i with log := i.log ++ [Syscall.read] }
  match k.read i.log with
  | .error e => (.fail (.errno e), i1)
  | .ok raw =>
    let data := raw.take bufLen
    let n := data.length
    if n < SizeofInotifyEvent then (.fail .shortRead, i1)
    else decodeLoop data (n + 1) 0 i1 []

/-! ## `Close` -/

/-- The loop of `Close` over `i.watches`, in the order of the list. -/
def closeLoop (k : Kernel) : List (String × Nat) → List Syscall → Option Nat × List Syscall
  | [], log => (none, log)
  | (_, w) :: rest, log =>
    match k.inotifyRmWatch log w with
    | some e => (some e, log ++ [Syscall.inotifyRmWatch w])
    | none => closeLoop k rest (log ++ [Syscall.inotifyRmWatch w])

/-- The method `inotify.Close`. -/
def Close (k : Kernel) (i : Inotify) : Option Err × Inotify :=
  match closeLoop k i.watches i.log with
  | (some e, log) => (some (Err.errno e), { i with log := log })
  | (none, log) => ((k.close log).map Err.errno, { i with log := log ++ [Syscall.close] })

/-! ## `AddWatchRecursive` -/

/-- A file tree as `os.Lstat` and `os.ReadDir` report it: a directory holds
the entries `os.ReadDir` returns, in the order it returns them, and the error
it returns with them, if any. -/
inductive FsNode where
  | file (name : String)
  | dir (name : String) (readErr : Option Nat) (entries : List FsNode)

/-- The method `Name` of `fs.DirEntry`. -/
def FsNode.Name : FsNode → String
  | .file nm => nm
  | .dir nm _ _ => nm

/-- The method `IsDir` of `fs.DirEntry`. -/
def FsNode.IsDir : FsNode → Bool
  | .file _ => false
  | .dir _ _ _ => true

/-- The type `fs.WalkDirFunc`, over a state `σ`: the path, the entry (`none`
for a nil entry), the error passed in; `none` as a result means that the
callback was cut short by the model. -/
abbrev WalkDirFunc (σ : Type) :=
  String → Option FsNode → Option Nat → σ → Option (Option Err × σ)

mutual
/-- The function `walkDir` of the package `path/filepath`. The callbacks of
this repository never return `SkipDir` or `SkipAll`, which `Err` leaves out. -/
def walkDir {σ : Type} (join : String → String → String) (fn : WalkDirFunc σ) :
    String → FsNode → σ → Option (Option Err × σ)
  | path, .file nm, s => fn path (some (.file nm)) none s
  | path, .dir nm rerr entries, s =>
    match fn path (some (.dir nm rerr entries)) none s with
    | none => none
    | some (some e, s1) => some (some e, s1)
    | some (none, s1) =>
      match rerr with
      | some e =>
        match fn path (some (.dir nm rerr entries)) (some e) s1 with
        | none => none
        | some (some e', s2) => some (some e', s2)
        | some (none, s2) => walkEntries join fn path entries s2
      | none => walkEntries join fn path entries s1
/-- The loop of `walkDir` over the entries of a directory. -/
def walkEntries {σ : Type} (join : String → String → String) (fn : WalkDirFunc σ) :
    String → List FsNode → σ → Option (Option Err × σ)
  | _, [], s => some (none, s)
  | path, d1 :: rest, s =>
    match walkDir join fn (join path d1.Name) d1 s with
    | none => none
    | some (some e, s1) => some (some e, s1)
    | some (none, s1) => walkEntries join fn path rest s1
end

/-- The function `filepath.WalkDir`; `lstat` is what `os.Lstat(root)` returns,
with the tree below `root`. -/
def WalkDir {σ : Type} (join : String → String → String) (root : String)
    (lstat : Except Nat FsNode) (fn : WalkDirFunc σ) (s : σ) : Option (Option Err × σ) :=
  match lstat with
  | .error e => fn root none (some e) s
  | .ok node => walkDir join fn root node s

/-- The method `inotify.AddWatchRecursive`, on the file tree `tree` found at
`path`; `fuel` bounds the depth of the recursion and `none` means it ran out. -/
def AddWatchRecursive (clean : String → String) (join : String → String → String)
    (k : Kernel) : Nat → Inotify → String → Except Nat FsNode → Nat →
    Option (Option Err × Inotify)
  | 0, _, _, _, _ => none
  | fuel + 1, i, path, tree, flags =>
    match AddWatch clean k i path flags with
    | (some e, i1) => some (some e, i1)
    | (none, i1) =>
      WalkDir join path tree (fun p info err s =>
        match err with
        | some e =>
          if p = path then some (some (Err.accessing path (Err.errno e)), s)
          else some (none, s)
        | none =>
          if p = path then some (none, s)
          else
            match info with
            | some d =>
              if d.IsDir then
                match AddWatchRecursive clean join k fuel s p (.ok d) flags with
                | none => none
                | some (some e, s1) => some (some (Err.failedToWatch path e), s1)
                | some (none, s1) => some (none, s1)
              else some (none, s)
            | none => some (none, s)) i1

mutual
/-- Number of nested directory levels of a tree. -/
def FsNode.depth : FsNode → Nat
  | .file _ => 0
  | .dir _ _ entries => depthEntries entries + 1
/-- The deepest of a list of trees. -/
def depthEntries : List FsNode → Nat
  | [] => 0
  | d :: rest => max d.depth (depthEntries rest)
end

mutual
/-- No `os.ReadDir` of the tree reports an error. -/
def FsNode.readable : FsNode → Bool
  | .file _ => true
  | .dir _ rerr entries => rerr.isNone && readableEntries entries
/-- No `os.ReadDir` below the entries reports an error. -/
def readableEntries : List FsNode → Bool
  | [] => true
  | d :: rest => d.readable && readableEntries rest
end

mutual
/-- The paths `walkDir` gives to the directories of the tree found at `path`,
that one included. -/
def FsNode.dirPaths (join : String → String → String) : String → FsNode → List String
  | _, .file _ => []
  | path, .dir _ _ entries => path :: dirPathsEntries join path entries
/-- The paths of the directories at and below the entries of `path`. -/
def dirPathsEntries (join : String → String → String) : String → List FsNode → List String
  | _, [] => []
  | path, d :: rest =>
    d.dirPaths join (join path d.Name) ++ dirPathsEntries join path rest
end

/-! ## The dispatch loop of `fsnotify.go` -/

/-- The goroutine `Watcher.loop` seen from outside: its variable `pending`,
whether the channel `more` holds its token, what was sent on `events` and on
`errors` (oldest first), how often `notifier.Read` was called, and whether
the loop has closed `events` and returned. -/
structure Watcher where
  pending : List Event
  more : Bool
  events : List Event
  errors : List Err
  reads : Nat
  closed : Bool
  deriving DecidableEq, Repr

/-- The loop as `NewWatcher` starts it. -/
def NewWatcher : Watcher :=
  { pending := [], more := false, events := [], errors := [], reads := 0, closed := false }

/-- The method `Watcher.setMore`. -/
def setMore (w : Watcher) : Watcher := { w with more := true }

/-- One iteration of `Watcher.loop`: `done` says that the `select` takes the
case `<-w.done`; `read` is what `w.notifier.Read()` returns if it is called.
The sends on `events` and `errors` are taken to completion. -/
def loopIter (w : Watcher) (done : Bool) (read : Except Err (List Event)) : Watcher :=
  if w.closed then w
  else if done then { w with closed := true }
  else if w.more then { w with more := false, events := w.events ++ w.pending }
  else if w.pending.length > MaxEvents then w
  else
    match read with
    | .error e => { w with reads := w.reads + 1, errors := w.errors ++ [e] }
    | .ok events => setMore { w with reads := w.reads + 1, pending := w.pending ++ events }

/-- A run of `Watcher.loop`, one pair per iteration. -/
def loop : Watcher → List (Bool × Except Err (List Event)) → Watcher
  | w, [] => w
  | w, (done, read) :: rest => loop (loopIter w done read) rest

/-! ## The records of the inotify stream -/

/-- One `inotify_event`: the header fields and the `len` name bytes. -/
structure Record where
  wd : Nat
  mask : Nat
  cookie : Nat
  name : List Nat
  deriving DecidableEq, Repr

/-- The four bytes of a `uint32`. -/
def enc32 (x : Nat) : List Nat :=
  [x % 256, x / 2 ^ 8 % 256, x / 2 ^ 16 % 256, x / 2 ^ 24 % 256]

/-- The 16 bytes of the header `struct inotify_event`. -/
def encHeader (wd mask cookie len : Nat) : List Nat :=
  enc32 wd ++ enc32 mask ++ enc32 cookie ++ enc32 len

/-- The bytes of a record: the 16-byte header, then the name. -/
def Record.encode (r : Record) : List Nat :=
  encHeader r.wd r.mask r.cookie r.name.length ++ r.name

/-- Records packed back to back. -/
def encodeAll : List Record → List Nat
  | [] => []
  | r :: rest => r.encode ++ encodeAll rest

/-- The fields fit their width, the name fits `PathMax`, bytes are bytes. -/
def Record.WellFormed (r : Record) : Prop :=
  r.wd < 2 ^ 32 ∧ r.mask < 2 ^ 32 ∧ r.cookie < 2 ^ 32 ∧ r.name.length ≤ PathMax ∧
    ∀ b ∈ r.name, b < 256

instance (r : Record) : Decidable r.WellFormed :=
  inferInstanceAs (Decidable (_ ∧ _))

/-- The event a record stands for when `rwatches` holds `path` for it. -/
def Record.event (path : String) (r : Record) : Event :=
  { Name := if r.name.length > 0 then path ++ "/" ++ TrimRight (goString r.name) "\x00"
            else path,
    Op := r.mask }

/-- The records decoded one after the other: the events, the tables left. -/
def decodeRecords : Inotify → List Record → List Event × Inotify
  | i, [] => ([], i)
  | i, r :: rest =>
    let out := decodeRecords (selfDelete i r.wd r.mask) rest
    (r.event ((i.rwatches.get r.wd).getD "") :: out.1, out.2)

/-- The pair of `wd` and `p` is in `rwatches`, or both have left the tables. -/
def PairOrGone (p : String) (wd : Nat) (i : Inotify) : Prop :=
  i.rwatches.get wd = some p ∨ (i.rwatches.get wd = none ∧ i.watches.get p = none)

/-- Both `wd` and `p` have left the tables. -/
def Gone (p : String) (wd : Nat) (i : Inotify) : Prop :=
  i.rwatches.get wd = none ∧ i.watches.get p = none

/-- From `s` to `s'` the keys of `watches` only grow, and no entry changes
outside the keys `D`. -/
def Grows (D : List String) (s s' : Inotify) : Prop :=
  (∀ q, (s.watches.get q).isSome → (s'.watches.get q).isSome) ∧
    (∀ q, q ∉ D → s'.watches.get q = s.watches.get q)

/-- What a walk or a recursive call achieves from `s` over the directory
paths `D`: it ends without error in a state where the cleaned form of every
path of `D` is in `watches` and nothing changed outside these keys. -/
def Registers (clean : String → String) (D : List String) (s : Inotify)
    (r : Option (Option Err × Inotify)) : Prop :=
  ∃ s', r = some (none, s') ∧ Grows (D.map clean) s s' ∧
    ∀ d ∈ D, (s'.watches.get (clean d)).isSome

/-- The bytes after the records at which `Read` stops without touching the
tables: fewer than a header, or a header with the overflow flag. -/
def EndsRead (tail : List Nat) : Prop :=
  tail.length < SizeofInotifyEvent ∨
    ∃ wd mask cookie len rest, tail = encHeader wd mask cookie len ++ rest ∧
      mask < 2 ^ 32 ∧ mask &&& IN_Q_OVERFLOW ≠ 0

/-! ## Kernels and inputs used as instances -/

/-- A kernel that answers every `inotify_add_watch` with the identifier 1, as
it does for two names of one inode. -/
def sameInodeKernel : Kernel :=
  { inotifyAddWatch := fun _ _ _ => .ok 1
    inotifyRmWatch := fun _ _ => none
    read := fun _ => .error 11
    close := fun _ => none }

/-- The position, counted from `n`, of the first `inotify_add_watch` of `name`
in a log, or the position after its end. -/
def firstAdd : List Syscall → String → Nat → Nat
  | [], _, n => n
  | .inotifyAddWatch nm _ :: rest, name, n => if nm = name then n else firstAdd rest name (n + 1)
  | _ :: rest, name, n => firstAdd rest name (n + 1)

/-- A kernel that gives each path one identifier of its own. -/
def countingKernel : Kernel :=
  { inotifyAddWatch := fun log name _ => .ok (firstAdd log name 1)
    inotifyRmWatch := fun _ _ => none
    read := fun _ => .error 11
    close := fun _ => none }

/-- A kernel whose every `read` returns the bytes `data`. -/
def readKernel (data : List Nat) : Kernel :=
  { inotifyAddWatch := fun _ _ _ => .ok 1
    inotifyRmWatch := fun _ _ => none
    read := fun _ => .ok data
    close := fun _ => none }

/-- The notifier after `AddWatch("a", 0)` was answered with the identifier 1. -/
def watchingA : Inotify :=
  { watches := [("a", 1)], rwatches := [(1, "a")], log := [Syscall.inotifyAddWatch "a" 4095] }

/-- What the kernel queues when the watched file "a" is removed: the event
`IN_DELETE_SELF`, then the event `IN_IGNORED`, both for the identifier 1. -/
def selfDeleteThenIgnored : List Record :=
  [{ wd := 1, mask := IN_DELETE_SELF, cookie := 0, name := [] },
   { wd := 1, mask := IN_IGNORED, cookie := 0, name := [] }]

/-- The creation of "b" in the watched directory "a", then the removal of "a". -/
def createThenSelfDelete : List Record :=
  [{ wd := 1, mask := IN_CREATE, cookie := 0, name := [98, 0, 0, 0] },
   { wd := 1, mask := IN_DELETE_SELF, cookie := 0, name := [] }]

/-- The creation of "b" in the watched directory "a". -/
def createB : Record := { wd := 1, mask := IN_CREATE, cookie := 0, name := [98, 0, 0, 0] }

/-- The creation of "b" in "a", the overflow event of the kernel (identifier
`-1`), and after it the removal of "a". -/
def overflowBuffer : List Nat :=
  encodeAll [createB] ++
    (encHeader 4294967295 IN_Q_OVERFLOW 0 0 ++ encodeAll selfDeleteThenIgnored)

/-- A kernel that answers every `inotify_rm_watch` with `EINVAL`, as it does
for a watch it has already dropped. -/
def rmFailKernel : Kernel :=
  { inotifyAddWatch := fun _ _ _ => .ok 1
    inotifyRmWatch := fun _ _ => some 22
    read := fun _ => .error 11
    close := fun _ => none }

/-- The notifier watching "a" and "b". -/
def watchingAB : Inotify :=
  { watches := [("b", 2), ("a", 1)], rwatches := [(2, "b"), (1, "a")],
    log := [Syscall.inotifyAddWatch "a" 4095, Syscall.inotifyAddWatch "b" 4095] }

/-- Two events, as two reads return them. -/
def eventA : Event := { Name := "d/a", Op := IN_CREATE }

/-- The second of the two events. -/
def eventB : Event := { Name := "d/b", Op := IN_CREATE }

/-- A run of the loop without shutdown: a read returning `eventA`, the drain,
a read returning `eventB`, the drain. -/
def twoReads : List (Bool × Except Err (List Event)) :=
  [(false, .ok [eventA]), (false, .ok []), (false, .ok [eventB]), (false, .ok [])]

/-- A run of the loop without shutdown: a read returning `MaxEvents` events,
the drain, a read returning one event, the drain, and three more iterations
in which `Read` would return one event. -/
def fullRun : List (Bool × Except Err (List Event)) :=
  [(false, .ok (List.replicate MaxEvents eventA)), (false, .ok []),
   (false, .ok [eventB]), (false, .ok []),
   (false, .ok [eventB]), (false, .ok [eventB]), (false, .ok [eventB])]

/-- The join of a directory path and an entry name, for paths that are clean. -/
def slashJoin (a b : String) : String := a ++ "/" ++ b

/-- A directory "r" holding a file, a directory "a" with a directory "b" and
a file in it, and an empty directory "c". -/
def sampleTree : FsNode :=
  .dir "r" none [.file "f", .dir "a" none [.dir "b" none [], .file "g"], .dir "c" none []]

/-- The notifier after `AddWatch("a", 0)` and `AddWatch("b", 0)` were both
answered with the identifier 1: "a" is in `watches` with the identifier 1,
which `rwatches` holds for "b". -/
def sharedWd : Inotify :=
  { watches := [("b", 1), ("a", 1)], rwatches := [(1, "b")],
    log := [Syscall.inotifyAddWatch "a" 4095, Syscall.inotifyAddWatch "b" 4095] }

/-- The event `IN_DELETE_SELF` for the identifier 1. -/
def selfDeleteOne : Record := { wd := 1, mask := IN_DELETE_SELF, cookie := 0, name := [] }

/-- The event `IN_IGNORED` for the identifier 1. -/
def ignoredOne : Record := { wd := 1, mask := IN_IGNORED, cookie := 0, name := [] }

/-! # Theorems -/

/-! ## Go maps -/

theorem GoMap.get_delete_self {κ ν : Type} [DecidableEq κ] (m : GoMap κ ν) (k : κ) :
    (m.delete k).get k = none := by
  induction m with
  | nil => rfl
  | cons e rest ih =>
    obtain ⟨k', v⟩ := e
    by_cases h : k' = k <;> simp [GoMap.delete, GoMap.get, h, ih]

theorem GoMap.get_delete_ne {κ ν : Type} [DecidableEq κ] (m : GoMap κ ν) (k q : κ)
    (h : q ≠ k) : (m.delete k).get q = m.get q := by
  induction m with
  | nil => rfl
  | cons e rest ih =>
    obtain ⟨k', v⟩ := e
    by_cases h1 : k' = k
    · subst h1
      have h2 : ¬ k' = q := fun h3 => h h3.symm
      simp [GoMap.delete, GoMap.get, h2, ih]
    · by_cases h2 : k' = q
      · subst h2
        simp [GoMap.delete, GoMap.get, h1]
      · simp [GoMap.delete, GoMap.get, h1, h2, ih]

theorem GoMap.get_set_self {κ ν : Type} [DecidableEq κ] (m : GoMap κ ν) (k : κ) (v : ν) :
    (m.set k v).get k = some v := by
  simp [GoMap.set, GoMap.get]

theorem GoMap.get_set_ne {κ ν : Type} [DecidableEq κ] (m : GoMap κ ν) (k q : κ) (v : ν)
    (h : q ≠ k) : (m.set k v).get q = m.get q := by
  have h1 : ¬ k = q := fun h2 => h h2.symm
  simp [GoMap.set, GoMap.get, h1, GoMap.get_delete_ne m k q h]

theorem GoMap.delete_of_get_none {κ ν : Type} [DecidableEq κ] (m : GoMap κ ν) (k : κ)
    (h : m.get k = none) : m.delete k = m := by
  induction m with
  | nil => rfl
  | cons e rest ih =>
    obtain ⟨k', v⟩ := e
    by_cases h1 : k' = k
    · simp [GoMap.get, h1] at h
    · simp [GoMap.get, h1] at h
      simp [GoMap.delete, h1, ih h]

/-! ## `AddWatch`, `RemoveWatch` and the two tables -/

theorem AddWatch_consistent (clean : String → String) (k : Kernel) (i : Inotify)
    (name : String) (flags : Nat) (hc : Consistent i)
    (hid : ∀ wd, k.inotifyAddWatch i.log (clean name)
        (if flags = 0 then IN_ALL_EVENTS else flags) = .ok wd → IdAllowed i (clean name) wd) :
    Consistent (AddWatch clean k i name flags).2 := by
  unfold AddWatch
  simp only
  cases hk : k.inotifyAddWatch i.log (clean name) (if flags = 0 then IN_ALL_EVENTS else flags) with
  | error e => exact hc
  | ok wd =>
    have ha := hid wd hk
    intro p w
    simp only
    by_cases hp : p = clean name
    · subst hp
      rw [GoMap.get_set_self]
      by_cases hw : w = toUint32 wd
      · subst hw
        rw [GoMap.get_set_self]
        simp
      · rw [GoMap.get_set_ne _ _ _ _ hw]
        constructor
        · intro h
          exact absurd (Option.some.inj h).symm hw
        · intro h
          have h1 := (hc (clean name) w).2 h
          rcases ha with h2 | ⟨h2, _⟩
          · rw [h2] at h1
            exact absurd (Option.some.inj h1).symm hw
          · rw [h2] at h1
            exact absurd h1 (by simp)
    · rw [GoMap.get_set_ne _ _ _ _ hp]
      by_cases hw : w = toUint32 wd
      · subst hw
        rw [GoMap.get_set_self]
        constructor
        · intro h
          have h1 := (hc p (toUint32 wd)).1 h
          rcases ha with h2 | ⟨_, h2⟩
          · have h3 := (hc (clean name) (toUint32 wd)).1 h2
            rw [h1] at h3
            exact absurd (Option.some.inj h3) hp
          · rw [h2] at h1
            exact absurd h1 (by simp)
        · intro h
          exact absurd (Option.some.inj h).symm hp
      · rw [GoMap.get_set_ne _ _ _ _ hw]
        exact hc p w

theorem RemoveWatch_consistent (clean : String → String) (k : Kernel) (i : Inotify)
    (name : String) (hc : Consistent i) : Consistent (RemoveWatch clean k i name).2 := by
  unfold RemoveWatch
  simp only
  cases hg : i.watches.get (clean name) with
  | none => exact hc
  | some wd =>
    simp only
    cases hk : k.inotifyRmWatch i.log wd with
    | some e => exact hc
    | none =>
      intro p w
      simp only
      by_cases hp : p = clean name
      · subst hp
        rw [GoMap.get_delete_self]
        by_cases hw : w = wd
        · subst hw
          rw [GoMap.get_delete_self]
          simp
        · rw [GoMap.get_delete_ne _ _ _ hw]
          constructor
          · intro h
            exact absurd h (by simp)
          · intro h
            have h1 := (hc (clean name) w).2 h
            rw [hg] at h1
            exact absurd (Option.some.inj h1).symm hw
      · rw [GoMap.get_delete_ne _ _ _ hp]
        by_cases hw : w = wd
        · subst hw
          rw [GoMap.get_delete_self]
          constructor
          · intro h
            have h1 := (hc p w).1 h
            have h2 := (hc (clean name) w).1 hg
            rw [h1] at h2
            exact absurd (Option.some.inj h2) hp
          · intro h
            exact absurd h (by simp)
        · rw [GoMap.get_delete_ne _ _ _ hw]
          exact hc p w

theorem runCalls_consistent (clean : String → String) (k : Kernel) (calls : List Call) :
    ∀ i : Inotify, Consistent i → IdsAllowed clean k i calls →
      Consistent (runCalls clean k i calls) := by
  induction calls with
  | nil => intro i hc _; exact hc
  | cons c rest ih =>
    intro i hc hids
    cases c with
    | add name flags =>
      obtain ⟨h1, h2⟩ := hids
      apply ih _ _ h2
      apply AddWatch_consistent clean k i name flags hc
      intro wd hk
      rw [hk] at h1
      exact h1
    | remove name =>
      exact ih _ (RemoveWatch_consistent clean k i name hc) hids

/-- C1, as stated, fails: when the kernel returns the identifier 1 for the
paths "a" and "b", `watches` holds "a" with 1 while `rwatches` holds 1 with
"b", so the tables are not consistent after two calls of `AddWatch`. -/
theorem C1_counterexample :
    (runCalls id sameInodeKernel NewNotifier [.add "a" 0, .add "b" 0]).watches.get "a" = some 1 ∧
    (runCalls id sameInodeKernel NewNotifier [.add "a" 0, .add "b" 0]).rwatches.get 1 = some "b" ∧
    ¬ Consistent (runCalls id sameInodeKernel NewNotifier [.add "a" 0, .add "b" 0]) := by
  refine ⟨by decide, by decide, ?_⟩
  intro h
  have h1 := (h "a" 1).1 (by decide)
  revert h1
  decide

/-- C1, amended: for every sequence of `AddWatch` and `RemoveWatch` calls from
the empty tables, and every outcome of each kernel call in which an identifier
returned for a path is the one the tables hold for that path or, the path
having none, is not in `rwatches`, the tables stay consistent: `p` is in
`watches` with `wd` if and only if `wd` is in `rwatches` with `p`. -/
theorem C1_tables_consistent (clean : String → String) (k : Kernel) (calls : List Call)
    (hids : IdsAllowed clean k NewNotifier calls) :
    Consistent (runCalls clean k NewNotifier calls) := by
  apply runCalls_consistent clean k calls NewNotifier _ hids
  intro p wd
  simp [NewNotifier, GoMap.get]

theorem C1_tables_consistent_witness :
    IdsAllowed id countingKernel NewNotifier
        [.add "a" 0, .add "b" 1, .add "a" 0, .remove "a", .remove "c", .add "c" 2] ∧
      Consistent (runCalls id countingKernel NewNotifier
        [.add "a" 0, .add "b" 1, .add "a" 0, .remove "a", .remove "c", .add "c" 2]) :=
  ⟨by decide, C1_tables_consistent id countingKernel _ (by decide)⟩

theorem RemoveWatch_absent (clean : String → String) (k : Kernel) (i : Inotify)
    (name : String) (h : i.watches.get (clean name) = none) :
    RemoveWatch clean k i name = (none, i) := by
  simp [RemoveWatch, h]

/-- C9: for every table state and every path whose cleaned form has no entry
in `watches`, `RemoveWatch` returns nil and leaves the notifier as it was:
both tables unchanged and no kernel call issued. -/
theorem C9_remove_unregistered (clean : String → String) (k : Kernel) (i : Inotify)
    (name : String) (h : i.watches.get (clean name) = none) :
    RemoveWatch clean k i name = (none, i) ∧
      (RemoveWatch clean k i name).2.watches = i.watches ∧
      (RemoveWatch clean k i name).2.rwatches = i.rwatches ∧
      (RemoveWatch clean k i name).2.log = i.log := by
  rw [RemoveWatch_absent clean k i name h]
  exact ⟨rfl, rfl, rfl, rfl⟩

theorem C9_remove_unregistered_witness :
    ({ watches := [("a", 1)], rwatches := [(1, "a")], log := [] } : Inotify).watches.get
        (id "b") = none ∧
      RemoveWatch id countingKernel { watches := [("a", 1)], rwatches := [(1, "a")], log := [] }
        "b" = (none, { watches := [("a", 1)], rwatches := [(1, "a")], log := [] }) :=
  ⟨by decide, (C9_remove_unregistered id countingKernel _ "b" (by decide)).1⟩

/-! ## Decoding records -/

theorem getD_append_offset (pre l : List Nat) (j : Nat) :
    (pre ++ l).getD (pre.length + j) 0 = l.getD j 0 := by
  rw [List.getD_append_right _ _ _ _ (Nat.le_add_right _ _)]
  simp

theorem u32At_append (pre l : List Nat) (j : Nat) :
    u32At (pre ++ l) (pre.length + j) = u32At l j := by
  simp only [u32At, Nat.add_assoc, getD_append_offset]

theorem encHeader_length (wd mask cookie len : Nat) :
    (encHeader wd mask cookie len).length = 16 := by
  simp [encHeader, enc32]

theorem Record.encode_length (r : Record) : r.encode.length = 16 + r.name.length := by
  simp [Record.encode, encHeader_length]

theorem u32At_header_wd (wd mask cookie len : Nat) (rest : List Nat) (h : wd < 2 ^ 32) :
    u32At (encHeader wd mask cookie len ++ rest) 0 = wd := by
  simp only [u32At, encHeader, enc32, List.cons_append, List.nil_append, List.getD_cons_zero,
    List.getD_cons_succ, List.append_assoc]
  norm_num at h ⊢
  omega

theorem u32At_header_mask (wd mask cookie len : Nat) (rest : List Nat) (h : mask < 2 ^ 32) :
    u32At (encHeader wd mask cookie len ++ rest) 4 = mask := by
  simp only [u32At, encHeader, enc32, List.cons_append, List.nil_append, List.getD_cons_zero,
    List.getD_cons_succ, List.append_assoc]
  norm_num at h ⊢
  omega

theorem u32At_header_len (wd mask cookie len : Nat) (rest : List Nat) (h : len < 2 ^ 32) :
    u32At (encHeader wd mask cookie len ++ rest) 12 = len := by
  simp only [u32At, encHeader, enc32, List.cons_append, List.nil_append, List.getD_cons_zero,
    List.getD_cons_succ, List.append_assoc]
  norm_num at h ⊢
  omega

/-- The name as `Read` slices it: the bytes the kernel wrote, then zeros. -/
theorem bufSlice_append (pre part rest : List Nat) (m : Nat) (h : rest = [] ∨ m = 0) :
    bufSlice (pre ++ (part ++ rest)) pre.length (part.length + m)
      = part ++ List.replicate m 0 := by
  unfold bufSlice
  apply List.ext_getElem
  · simp
  · intro n h1 h2
    simp only [List.getElem_map, List.getElem_range, getD_append_offset]
    by_cases hn : n < part.length
    · rw [List.getD_append _ _ _ _ hn, List.getElem_append_left hn]
      simp [List.getD_eq_getElem, hn]
    · rcases h with h | h
      · subst h
        rw [List.getElem_append_right (by omega)]
        simp only [List.append_nil, List.getElem_replicate]
        rw [List.getD_eq_default]
        omega
      · subst h
        simp at h2
        omega

theorem bufSlice_encode (pre rest : List Nat) (r : Record) :
    bufSlice (pre ++ (r.encode ++ rest)) (pre.length + SizeofInotifyEvent) r.name.length
      = r.name := by
  have hsplit : pre ++ (r.encode ++ rest)
      = (pre ++ encHeader r.wd r.mask r.cookie r.name.length) ++ (r.name ++ rest) := by
    simp [Record.encode, List.append_assoc]
  have hlen : (pre ++ encHeader r.wd r.mask r.cookie r.name.length).length
      = pre.length + SizeofInotifyEvent := by
    simp [encHeader_length, SizeofInotifyEvent]
  have h := bufSlice_append (pre ++ encHeader r.wd r.mask r.cookie r.name.length) r.name rest 0
    (Or.inr rfl)
  rw [hlen] at h
  rw [hsplit]
  simpa using h

theorem decodeLoop_step (pre rest : List Nat) (r : Record) (fuel : Nat) (i : Inotify)
    (events : List Event) (hwf : r.WellFormed) (hov : r.mask &&& IN_Q_OVERFLOW = 0)
    (hlen : (pre ++ (r.encode ++ rest)).length ≤ bufLen) :
    decodeLoop (pre ++ (r.encode ++ rest)) (fuel + 1) pre.length i events =
      decodeLoop (pre ++ (r.encode ++ rest)) fuel
        (pre.length + SizeofInotifyEvent + r.name.length) (selfDelete i r.wd r.mask)
        (events ++ [r.event ((i.rwatches.get r.wd).getD "")]) := by
  obtain ⟨hwd, hmask, _, hname, _⟩ := hwf
  have hname' : r.name.length < 2 ^ 32 := by
    have : PathMax = 4096 := rfl
    norm_num
    omega
  have h1 : u32At (pre ++ (r.encode ++ rest)) pre.length = r.wd := by
    have := u32At_append pre (r.encode ++ rest) 0
    rw [Nat.add_zero] at this
    rw [this, Record.encode, List.append_assoc, u32At_header_wd _ _ _ _ _ hwd]
  have h2 : u32At (pre ++ (r.encode ++ rest)) (pre.length + 4) = r.mask := by
    rw [u32At_append, Record.encode, List.append_assoc, u32At_header_mask _ _ _ _ _ hmask]
  have h3 : u32At (pre ++ (r.encode ++ rest)) (pre.length + 12) = r.name.length := by
    rw [u32At_append, Record.encode, List.append_assoc, u32At_header_len _ _ _ _ _ hname']
  have h4 : pre.length + SizeofInotifyEvent ≤ (pre ++ (r.encode ++ rest)).length := by
    simp [Record.encode_length, SizeofInotifyEvent]
    omega
  have h5 : (pre ++ (r.encode ++ rest)).length
      = pre.length + SizeofInotifyEvent + r.name.length + rest.length := by
    simp [Record.encode_length, SizeofInotifyEvent]
    omega
  rw [decodeLoop]
  simp only [h1, h2, h3, h4, if_true, hov, ne_eq, not_true_eq_false, if_false]
  by_cases hn : r.name.length > 0
  · have h6 : ¬ bufLen ≤ pre.length + SizeofInotifyEvent := by omega
    have h7 : ¬ PathMax < r.name.length := by omega
    have h8 : ¬ bufLen < pre.length + SizeofInotifyEvent + r.name.length := by omega
    simp only [hn, if_true, appendName, h6, h7, h8, if_false, bufSlice_encode, Record.event]
  · simp only [hn, if_false, Record.event]

theorem encodeAll_length_ge (recs : List Record) :
    SizeofInotifyEvent * recs.length ≤ (encodeAll recs).length := by
  induction recs with
  | nil => simp [encodeAll]
  | cons r rest ih =>
    simp [encodeAll, Record.encode_length, SizeofInotifyEvent] at ih ⊢
    omega

theorem decodeLoop_records (recs : List Record) :
    ∀ (pre rest : List Nat) (fuel : Nat) (i : Inotify) (events : List Event),
      (∀ r ∈ recs, r.WellFormed ∧ r.mask &&& IN_Q_OVERFLOW = 0) →
      (pre ++ (encodeAll recs ++ rest)).length ≤ bufLen →
      decodeLoop (pre ++ (encodeAll recs ++ rest)) (recs.length + fuel) pre.length i events =
        decodeLoop (pre ++ (encodeAll recs ++ rest)) fuel
          (pre.length + (encodeAll recs).length) (decodeRecords i recs).2
          (events ++ (decodeRecords i recs).1) := by
  induction recs with
  | nil =>
    intro pre rest fuel i events _ _
    simp [encodeAll, decodeRecords]
  | cons r rs ih =>
    intro pre rest fuel i events hall hlen
    have hr := hall r (List.mem_cons_self _ _)
    have hrs : ∀ r' ∈ rs, r'.WellFormed ∧ r'.mask &&& IN_Q_OVERFLOW = 0 :=
      fun r' h' => hall r' (List.mem_cons_of_mem _ h')
    have hdata : pre ++ (encodeAll (r :: rs) ++ rest)
        = pre ++ (r.encode ++ (encodeAll rs ++ rest)) := by
      simp [encodeAll, List.append_assoc]
    have hdata' : pre ++ (encodeAll (r :: rs) ++ rest)
        = (pre ++ r.encode) ++ (encodeAll rs ++ rest) := by
      simp [encodeAll, List.append_assoc]
    have hfuel : (r :: rs).length + fuel = (rs.length + fuel) + 1 := by
      simp only [List.length_cons]; omega
    rw [hfuel]
    conv => lhs; rw [hdata]
    rw [decodeLoop_step pre _ r _ i events hr.1 hr.2 (hdata ▸ hlen)]
    rw [← hdata, hdata']
    have hoff : pre.length + SizeofInotifyEvent + r.name.length = (pre ++ r.encode).length := by
      simp [Record.encode_length, SizeofInotifyEvent]; omega
    rw [hoff, ih (pre ++ r.encode) rest fuel _ _ hrs (hdata' ▸ hlen)]
    simp [decodeRecords, encodeAll, List.append_assoc, Nat.add_assoc]

theorem decodeLoop_end (data : List Nat) (fuel offset : Nat) (i : Inotify) (events : List Event)
    (h : ¬ offset + SizeofInotifyEvent ≤ data.length) :
    decodeLoop data (fuel + 1) offset i events = (.ok events, i) := by
  rw [decodeLoop]
  simp [h]

/-- One iteration on a record whose last `m` name bytes the kernel did not
write: they are read as zeros. -/
theorem decodeLoop_step_padded (pre part rest : List Nat) (wd mask cookie m fuel : Nat)
    (i : Inotify) (events : List Event) (hwd : wd < 2 ^ 32) (hmask : mask < 2 ^ 32)
    (hmax : part.length + m ≤ PathMax) (hov : mask &&& IN_Q_OVERFLOW = 0)
    (hrest : rest = [] ∨ m = 0)
    (hlen : pre.length + SizeofInotifyEvent + part.length + m + rest.length ≤ bufLen) :
    decodeLoop (pre ++ (encHeader wd mask cookie (part.length + m) ++ (part ++ rest)))
        (fuel + 1) pre.length i events =
      decodeLoop (pre ++ (encHeader wd mask cookie (part.length + m) ++ (part ++ rest))) fuel
        (pre.length + SizeofInotifyEvent + (part.length + m)) (selfDelete i wd mask)
        (events ++ [Record.event ((i.rwatches.get wd).getD "")
          { wd := wd, mask := mask, cookie := cookie, name := part ++ List.replicate m 0 }]) := by
  have hname' : part.length + m < 2 ^ 32 := by
    have : PathMax = 4096 := rfl
    norm_num
    omega
  have h1 : u32At (pre ++ (encHeader wd mask cookie (part.length + m) ++ (part ++ rest)))
      pre.length = wd := by
    have := u32At_append pre (encHeader wd mask cookie (part.length + m) ++ (part ++ rest)) 0
    rw [Nat.add_zero] at this
    rw [this, u32At_header_wd _ _ _ _ _ hwd]
  have h2 : u32At (pre ++ (encHeader wd mask cookie (part.length + m) ++ (part ++ rest)))
      (pre.length + 4) = mask := by
    rw [u32At_append, u32At_header_mask _ _ _ _ _ hmask]
  have h3 : u32At (pre ++ (encHeader wd mask cookie (part.length + m) ++ (part ++ rest)))
      (pre.length + 12) = part.length + m := by
    rw [u32At_append, u32At_header_len _ _ _ _ _ hname']
  have h4 : pre.length + SizeofInotifyEvent
      ≤ (pre ++ (encHeader wd mask cookie (part.length + m) ++ (part ++ rest))).length := by
    simp [encHeader_length, SizeofInotifyEvent]
  have hslice : bufSlice (pre ++ (encHeader wd mask cookie (part.length + m) ++ (part ++ rest)))
      (pre.length + SizeofInotifyEvent) (part.length + m) = part ++ List.replicate m 0 := by
    have h := bufSlice_append (pre ++ encHeader wd mask cookie (part.length + m)) part rest m hrest
    have hl : (pre ++ encHeader wd mask cookie (part.length + m)).length
        = pre.length + SizeofInotifyEvent := by
      simp [encHeader_length, SizeofInotifyEvent]
    rw [hl, List.append_assoc] at h
    exact h
  rw [decodeLoop]
  simp only [h1, h2, h3, h4, if_true, hov, ne_eq, not_true_eq_false, if_false]
  by_cases hn : part.length + m > 0
  · have h6 : ¬ bufLen ≤ pre.length + SizeofInotifyEvent := by omega
    have h7 : ¬ PathMax < part.length + m := by omega
    have h8 : ¬ bufLen < pre.length + SizeofInotifyEvent + (part.length + m) := by omega
    have hn' : (part ++ List.replicate m 0).length > 0 := by simpa using hn
    simp only [hn, if_true, appendName, h6, h7, h8, if_false, hslice, Record.event, hn']
  · have hn' : ¬ (part ++ List.replicate m 0).length > 0 := by simpa using hn
    simp only [hn, if_false, Record.event, hn']

theorem encodeAll_append (xs ys : List Record) :
    encodeAll (xs ++ ys) = encodeAll xs ++ encodeAll ys := by
  induction xs with
  | nil => simp [encodeAll]
  | cons r rest ih => simp [encodeAll, ih, List.append_assoc]

theorem decodeRecords_append (xs ys : List Record) :
    ∀ i : Inotify, decodeRecords i (xs ++ ys) =
      ((decodeRecords i xs).1 ++ (decodeRecords (decodeRecords i xs).2 ys).1,
        (decodeRecords (decodeRecords i xs).2 ys).2) := by
  induction xs with
  | nil => intro i; simp [decodeRecords]
  | cons r rest ih => intro i; simp [decodeRecords, ih]

/-- The call of `Read` up to the end of the well-formed records that start the
buffer. -/
theorem Read_records (k : Kernel) (i : Inotify) (recs : List Record) (rest : List Nat)
    (hread : k.read i.log = .ok (encodeAll recs ++ rest))
    (hlen : (encodeAll recs ++ rest).length ≤ bufLen)
    (h16 : SizeofInotifyEvent ≤ (encodeAll recs ++ rest).length)
    (hwf : ∀ r ∈ recs, r.WellFormed ∧ r.mask &&& IN_Q_OVERFLOW = 0) :
    Read k i =
      decodeLoop (encodeAll recs ++ rest) ((encodeAll recs ++ rest).length + 1 - recs.length)
        (encodeAll recs).length
        (decodeRecords { i with log := i.log ++ [Syscall.read] } recs).2
        (decodeRecords { i with log := i.log ++ [Syscall.read] } recs).1 := by
  have hge := encodeAll_length_ge recs
  have hfuel : (encodeAll recs ++ rest).length + 1
      = recs.length + ((encodeAll recs ++ rest).length + 1 - recs.length) := by
    simp [SizeofInotifyEvent] at hge ⊢
    omega
  have h := decodeLoop_records recs [] rest
    ((encodeAll recs ++ rest).length + 1 - recs.length)
    { i with log := i.log ++ [Syscall.read] } [] hwf (by simpa using hlen)
  simp only [List.nil_append, List.length_nil, Nat.zero_add] at h
  unfold Read
  simp only [hread, List.take_of_length_le hlen, Nat.not_lt.mpr h16, if_false]
  rw [hfuel, h]
  congr 1
  omega

theorem selfDelete_log (i : Inotify) (wd mask : Nat) : (selfDelete i wd mask).log = i.log := by
  unfold selfDelete
  split
  · split <;> rfl
  · rfl

theorem selfDelete_rwatches_get (i : Inotify) (wd mask w : Nat)
    (h : mask &&& IN_DELETE_SELF = IN_DELETE_SELF → w ≠ wd) :
    (selfDelete i wd mask).rwatches.get w = i.rwatches.get w := by
  unfold selfDelete
  split
  · split
    · rename_i hm
      exact GoMap.get_delete_ne _ _ _ (h hm)
    · rfl
  · rfl

theorem decodeRecords_events (path : Nat → String) (recs : List Record) :
    ∀ i : Inotify,
      (∀ r ∈ recs, i.rwatches.get r.wd = some (path r.wd)) →
      recs.Pairwise (fun r s => r.mask &&& IN_DELETE_SELF = IN_DELETE_SELF → s.wd ≠ r.wd) →
      (decodeRecords i recs).1 = recs.map (fun r => r.event (path r.wd)) := by
  induction recs with
  | nil => intro i _ _; rfl
  | cons r rs ih =>
    intro i hreg hp
    obtain ⟨hhead, htail⟩ := List.pairwise_cons.mp hp
    have hreg' : ∀ s ∈ rs, (selfDelete i r.wd r.mask).rwatches.get s.wd = some (path s.wd) := by
      intro s hs
      rw [selfDelete_rwatches_get i r.wd r.mask s.wd (hhead s hs)]
      exact hreg s (List.mem_cons_of_mem _ hs)
    simp only [decodeRecords, List.map_cons, ih _ hreg' htail,
      hreg r (List.mem_cons_self _ _), Option.getD_some]

/-! ## `Read`: the claims -/

/-- C2, as stated, fails twice. With no record at all (N = 0) `Read` does not
succeed with zero events but fails with the short-read error. And when the
kernel delivers `IN_DELETE_SELF` and then `IN_IGNORED` for the identifier 1,
registered for "a" when the read starts, the second event has the empty
`Name`, not "a". -/
theorem C2_counterexample :
    (Read (readKernel (encodeAll [])) watchingA).1 = .fail .shortRead ∧
    (∀ r ∈ selfDeleteThenIgnored, r.WellFormed ∧ r.mask &&& IN_Q_OVERFLOW = 0 ∧
      watchingA.rwatches.get r.wd = some "a") ∧
    (Read (readKernel (encodeAll selfDeleteThenIgnored)) watchingA).1
      = .ok [{ Name := "a", Op := IN_DELETE_SELF }, { Name := "", Op := IN_IGNORED }] ∧
    (Read (readKernel (encodeAll selfDeleteThenIgnored)) watchingA).1
      ≠ .ok (selfDeleteThenIgnored.map (fun r => r.event "a")) := by
  decide

/-- C2, amended: for every buffer returned by one kernel read that holds
N ≥ 1 well-formed packed records and nothing else (names of at most `PathMax`
bytes, no overflow flag, every identifier registered in `rwatches` when the
read starts, no record following a self-delete record of its own identifier),
`Read` succeeds and returns exactly N events in record order; the i-th has
the mask of the i-th record as `Op`, and as `Name` the registered path, a
slash and the name without its trailing NULs when the name length is not
zero, the registered path alone otherwise. -/
theorem C2_read_records (k : Kernel) (i : Inotify) (recs : List Record) (path : Nat → String)
    (hne : recs ≠ [])
    (hread : k.read i.log = .ok (encodeAll recs))
    (hlen : (encodeAll recs).length ≤ bufLen)
    (hwf : ∀ r ∈ recs, r.WellFormed ∧ r.mask &&& IN_Q_OVERFLOW = 0)
    (hreg : ∀ r ∈ recs, i.rwatches.get r.wd = some (path r.wd))
    (hfresh : recs.Pairwise
      (fun r s => r.mask &&& IN_DELETE_SELF = IN_DELETE_SELF → s.wd ≠ r.wd)) :
    (Read k i).1 = .ok (recs.map (fun r => r.event (path r.wd))) ∧
      (recs.map (fun r => r.event (path r.wd))).length = recs.length := by
  refine ⟨?_, by simp⟩
  have hge := encodeAll_length_ge recs
  have hpos : 0 < recs.length := List.length_pos.mpr hne
  have h16 : SizeofInotifyEvent ≤ (encodeAll recs ++ []).length := by
    simp [SizeofInotifyEvent] at hge ⊢
    omega
  have h := Read_records k i recs [] (by simpa using hread) (by simpa using hlen) h16 hwf
  simp only [List.append_nil] at h
  have hfuel : (encodeAll recs).length + 1 - recs.length
      = ((encodeAll recs).length - recs.length) + 1 := by
    simp [SizeofInotifyEvent] at hge
    omega
  rw [h, hfuel, decodeLoop_end _ _ _ _ _ (by simp [SizeofInotifyEvent])]
  simp only
  rw [decodeRecords_events path recs { i with log := i.log ++ [Syscall.read] } hreg hfresh]

theorem C2_read_records_witness :
    (Read (readKernel (encodeAll createThenSelfDelete)) watchingA).1
        = .ok (createThenSelfDelete.map (fun r => r.event ((fun _ => "a") r.wd))) ∧
      (createThenSelfDelete.map (fun r => r.event ((fun _ => "a") r.wd))).length
        = createThenSelfDelete.length ∧
      createThenSelfDelete.map (fun r => r.event "a")
        = [{ Name := "a/b", Op := IN_CREATE }, { Name := "a", Op := IN_DELETE_SELF }] :=
  ⟨(C2_read_records (readKernel (encodeAll createThenSelfDelete)) watchingA
      createThenSelfDelete (fun _ => "a") (by decide) rfl (by decide) (by decide) (by decide)
      (by decide)).1,
   (C2_read_records (readKernel (encodeAll createThenSelfDelete)) watchingA
      createThenSelfDelete (fun _ => "a") (by decide) rfl (by decide) (by decide) (by decide)
      (by decide)).2,
   by decide⟩

/-- C5: for every buffer of one kernel read in which a record has the
overflow flag set (the first such record coming after well-formed records),
`Read` fails with `ErrEventOverflow`, returning no events, and nothing that
follows the header of the overflow record has any effect: the tables are those
left by the records before it, and the same call on the buffer with any other
bytes after that header gives the same result and the same tables. -/
theorem C5_overflow (k : Kernel) (i : Inotify) (pre : List Record)
    (wd mask cookie len : Nat) (rest : List Nat)
    (hread : k.read i.log = .ok (encodeAll pre ++ (encHeader wd mask cookie len ++ rest)))
    (hlen : (encodeAll pre ++ (encHeader wd mask cookie len ++ rest)).length ≤ bufLen)
    (hpre : ∀ r ∈ pre, r.WellFormed ∧ r.mask &&& IN_Q_OVERFLOW = 0)
    (hmask : mask < 2 ^ 32) (hov : mask &&& IN_Q_OVERFLOW ≠ 0) :
    Read k i = (.fail .eventOverflow,
        (decodeRecords { i with log := i.log ++ [Syscall.read] } pre).2) ∧
      ∀ (k' : Kernel) (rest' : List Nat),
        k'.read i.log = .ok (encodeAll pre ++ (encHeader wd mask cookie len ++ rest')) →
        (encodeAll pre ++ (encHeader wd mask cookie len ++ rest')).length ≤ bufLen →
        Read k' i = Read k i := by
  have key : ∀ (k' : Kernel) (rest' : List Nat),
      k'.read i.log = .ok (encodeAll pre ++ (encHeader wd mask cookie len ++ rest')) →
      (encodeAll pre ++ (encHeader wd mask cookie len ++ rest')).length ≤ bufLen →
      Read k' i = (.fail .eventOverflow,
        (decodeRecords { i with log := i.log ++ [Syscall.read] } pre).2) := by
    intro k' rest' hread' hlen'
    have hge := encodeAll_length_ge pre
    have h16 : SizeofInotifyEvent
        ≤ (encodeAll pre ++ (encHeader wd mask cookie len ++ rest')).length := by
      simp [encHeader_length, SizeofInotifyEvent]
      omega
    have hfuel : (encodeAll pre ++ (encHeader wd mask cookie len ++ rest')).length + 1 - pre.length
        = ((encodeAll pre ++ (encHeader wd mask cookie len ++ rest')).length - pre.length) + 1 := by
      simp [encHeader_length, SizeofInotifyEvent] at hge ⊢
      omega
    rw [Read_records k' i pre _ hread' hlen' h16 hpre, hfuel, decodeLoop]
    have h2 : u32At (encodeAll pre ++ (encHeader wd mask cookie len ++ rest'))
        ((encodeAll pre).length + 4) = mask := by
      rw [u32At_append, u32At_header_mask _ _ _ _ _ hmask]
    have h4 : (encodeAll pre).length + SizeofInotifyEvent
        ≤ (encodeAll pre ++ (encHeader wd mask cookie len ++ rest')).length := by
      simp [encHeader_length, SizeofInotifyEvent]
    simp only [h2, h4, if_true, hov, ne_eq, not_false_eq_true]
  refine ⟨key k rest hread hlen, ?_⟩
  intro k' rest' hread' hlen'
  rw [key k' rest' hread' hlen', key k rest hread hlen]

theorem C5_overflow_witness :
    Read (readKernel overflowBuffer) watchingA
        = (.fail .eventOverflow,
            (decodeRecords { watchingA with log := watchingA.log ++ [Syscall.read] }
              [createB]).2) ∧
      watchingA.watches.get "a" = some 1 ∧
      (Read (readKernel overflowBuffer) watchingA).2.watches.get "a" = some 1 ∧
      Read (readKernel (encodeAll [createB] ++ (encHeader 4294967295 IN_Q_OVERFLOW 0 0 ++ [])))
          watchingA
        = Read (readKernel overflowBuffer) watchingA :=
  ⟨(C5_overflow (readKernel overflowBuffer) watchingA [createB]
      4294967295 IN_Q_OVERFLOW 0 0 (encodeAll selfDeleteThenIgnored) rfl (by decide) (by decide)
      (by decide) (by decide)).1,
   by decide, by decide,
   (C5_overflow (readKernel overflowBuffer) watchingA [createB]
      4294967295 IN_Q_OVERFLOW 0 0 (encodeAll selfDeleteThenIgnored) rfl (by decide) (by decide)
      (by decide) (by decide)).2 _ [] rfl (by decide)⟩

/-! ## The self-delete record -/

theorem GoMap.get_delete_none {κ ν : Type} [DecidableEq κ] (m : GoMap κ ν) (k q : κ)
    (h : m.get q = none) : (m.delete k).get q = none := by
  by_cases hq : q = k
  · subst hq
    exact GoMap.get_delete_self m q
  · rw [GoMap.get_delete_ne m k q hq]
    exact h

theorem selfDelete_gone (p : String) (wd : Nat) (i : Inotify) (w mask : Nat)
    (h : Gone p wd i) : Gone p wd (selfDelete i w mask) := by
  unfold selfDelete
  split
  · split
    · exact ⟨GoMap.get_delete_none _ _ _ h.1, GoMap.get_delete_none _ _ _ h.2⟩
    · exact h
  · exact h

theorem selfDelete_pairOrGone (p : String) (wd : Nat) (i : Inotify) (w mask : Nat)
    (h : PairOrGone p wd i) : PairOrGone p wd (selfDelete i w mask) := by
  rcases h with h | h
  · unfold selfDelete
    split
    · rename_i name hname
      split
      · by_cases hw : wd = w
        · subst hw
          rw [h] at hname
          have hn : name = p := (Option.some.inj hname).symm
          subst hn
          exact Or.inr ⟨GoMap.get_delete_self _ _, GoMap.get_delete_self _ _⟩
        · exact Or.inl (by
            show (i.rwatches.delete w).get wd = some p
            rw [GoMap.get_delete_ne _ _ _ hw]
            exact h)
      · exact Or.inl h
    · exact Or.inl h
  · exact Or.inr (selfDelete_gone p wd i w mask h)

theorem selfDelete_purges (p : String) (wd : Nat) (i : Inotify) (mask : Nat)
    (h : PairOrGone p wd i) (hself : mask &&& IN_DELETE_SELF = IN_DELETE_SELF) :
    Gone p wd (selfDelete i wd mask) := by
  rcases h with h | h
  · unfold selfDelete
    rw [h]
    simp only [hself, if_true]
    exact ⟨GoMap.get_delete_self _ _, GoMap.get_delete_self _ _⟩
  · exact selfDelete_gone p wd i wd mask h

theorem decodeRecords_pairOrGone (p : String) (wd : Nat) (recs : List Record) :
    ∀ i : Inotify, PairOrGone p wd i → PairOrGone p wd (decodeRecords i recs).2 := by
  induction recs with
  | nil => intro i h; exact h
  | cons r rs ih =>
    intro i h
    exact ih _ (selfDelete_pairOrGone p wd i r.wd r.mask h)

theorem decodeLoop_gone (p : String) (wd : Nat) (data : List Nat) (fuel : Nat) :
    ∀ (offset : Nat) (i : Inotify) (events : List Event),
      Gone p wd i → Gone p wd (decodeLoop data fuel offset i events).2 := by
  induction fuel with
  | zero => intro offset i events h; exact h
  | succ fuel ih =>
    intro offset i events h
    rw [decodeLoop]
    split
    · dsimp only
      split
      · exact h
      · split
        · exact selfDelete_gone p wd i _ _ h
        · exact ih _ _ _ (selfDelete_gone p wd i _ _ h)
    · exact h

theorem selfDelete_registered (i : Inotify) (p : String) (wd mask : Nat)
    (hw : i.rwatches.get wd = some p)
    (hself : mask &&& IN_DELETE_SELF = IN_DELETE_SELF) :
    selfDelete i wd mask
      = { i with rwatches := i.rwatches.delete wd, watches := i.watches.delete p } := by
  unfold selfDelete
  rw [hw]
  simp only [hself, if_true]

/-- C10, as stated, fails: a read of n = 16 bytes holding the header of a
record that declares a name of 4 bytes, so that the record would end 4 bytes
past n, does not make `Read` fail; the call succeeds with an event whose name
comes from the 4 bytes after n. The same happens when only the first of the
4 name bytes is within n. -/
theorem C10_counterexample :
    (encHeader 1 IN_CREATE 0 4).length = 16 ∧
    Read (readKernel (encHeader 1 IN_CREATE 0 4)) watchingA
      = (.ok [{ Name := "a/", Op := IN_CREATE }],
          { watchingA with log := watchingA.log ++ [Syscall.read] }) ∧
    Read (readKernel (encHeader 1 IN_CREATE 0 4 ++ [98])) watchingA
      = (.ok [{ Name := "a/b", Op := IN_CREATE }],
          { watchingA with log := watchingA.log ++ [Syscall.read] }) := by
  decide

/-- C10, amended: the decoder checks only that a whole 16-byte header lies
within the n bytes read before it decodes a record; the declared name length
is not checked against n. For every buffer of well-formed records followed by
a last record whose header is within n and whose declared name (of at most
`PathMax` bytes, ending within the array `buf`) has its last `m` bytes past
n, `Read` does not fail: it returns the events of all the records, the
last one being that of the record with `m` zero bytes in place of the
missing ones, and it leaves the tables as those records do. -/
theorem C10_truncated_record (k : Kernel) (i : Inotify) (recs : List Record)
    (wd mask cookie : Nat) (part : List Nat) (m : Nat)
    (hread : k.read i.log
      = .ok (encodeAll recs ++ (encHeader wd mask cookie (part.length + m) ++ part)))
    (hfit : (encodeAll recs).length + SizeofInotifyEvent + part.length + m ≤ bufLen)
    (hmax : part.length + m ≤ PathMax)
    (hwf : ∀ r ∈ recs, r.WellFormed ∧ r.mask &&& IN_Q_OVERFLOW = 0)
    (hwd : wd < 2 ^ 32) (hmask : mask < 2 ^ 32) (hov : mask &&& IN_Q_OVERFLOW = 0) :
    Read k i =
      (.ok (decodeRecords { i with log := i.log ++ [Syscall.read] }
          (recs ++ [{ wd := wd, mask := mask, cookie := cookie,
                      name := part ++ List.replicate m 0 }])).1,
        (decodeRecords { i with log := i.log ++ [Syscall.read] }
          (recs ++ [{ wd := wd, mask := mask, cookie := cookie,
                      name := part ++ List.replicate m 0 }])).2) := by
  have hge := encodeAll_length_ge recs
  have hn : (encodeAll recs ++ (encHeader wd mask cookie (part.length + m) ++ part)).length
      = (encodeAll recs).length + SizeofInotifyEvent + part.length := by
    simp [encHeader_length, SizeofInotifyEvent]
    omega
  have hlen : (encodeAll recs ++ (encHeader wd mask cookie (part.length + m) ++ part)).length
      ≤ bufLen := by
    rw [hn]; omega
  have h16 : SizeofInotifyEvent
      ≤ (encodeAll recs ++ (encHeader wd mask cookie (part.length + m) ++ part)).length := by
    rw [hn]; omega
  have hfuel : (encodeAll recs ++ (encHeader wd mask cookie (part.length + m) ++ part)).length
      + 1 - recs.length
      = ((encodeAll recs).length + part.length + 15 - recs.length) + 1 + 1 := by
    rw [hn]
    simp [SizeofInotifyEvent] at hge ⊢
    omega
  have hstep := decodeLoop_step_padded (encodeAll recs) part [] wd mask cookie m
    ((encodeAll recs).length + part.length + 15 - recs.length + 1)
    (decodeRecords { i with log := i.log ++ [Syscall.read] } recs).2
    (decodeRecords { i with log := i.log ++ [Syscall.read] } recs).1
    hwd hmask hmax hov (Or.inl rfl) (by simpa using hfit)
  simp only [List.append_nil] at hstep
  rw [Read_records k i recs _ hread hlen h16 hwf, hfuel, hstep,
    decodeLoop_end _ _ _ _ _ (by rw [hn]; omega), decodeRecords_append]
  simp [decodeRecords]

theorem C10_truncated_record_witness :
    Read (readKernel (encodeAll [createB] ++ (encHeader 1 IN_CREATE 0 ([99].length + 3) ++ [99])))
        watchingA =
      (.ok (decodeRecords { watchingA with log := watchingA.log ++ [Syscall.read] }
          ([createB] ++ [{ wd := 1, mask := IN_CREATE, cookie := 0,
                           name := [99] ++ List.replicate 3 0 }])).1,
        (decodeRecords { watchingA with log := watchingA.log ++ [Syscall.read] }
          ([createB] ++ [{ wd := 1, mask := IN_CREATE, cookie := 0,
                           name := [99] ++ List.replicate 3 0 }])).2) ∧
      (decodeRecords { watchingA with log := watchingA.log ++ [Syscall.read] }
          ([createB] ++ [{ wd := 1, mask := IN_CREATE, cookie := 0,
                           name := [99] ++ List.replicate 3 0 }])).1
        = [{ Name := "a/b", Op := IN_CREATE }, { Name := "a/c", Op := IN_CREATE }] :=
  ⟨C10_truncated_record (readKernel _) watchingA [createB] 1 IN_CREATE 0 [99] 3 rfl
      (by decide) (by decide) (by decide) (by decide) (by decide) (by decide),
   by decide⟩

/-! ## `Close` -/

/-- C7, on the code: when `inotify_rm_watch` fails for the first watch that
`Close` visits, `Close` returns that error and issues no further
`inotify_rm_watch`, and it returns before `i.f.Close()`: no `close` is
issued, the file stays open. -/
theorem C7_close_keeps_file_open :
    Close rmFailKernel watchingAB
      = (some (Err.errno 22),
          { watchingAB with log := watchingAB.log ++ [Syscall.inotifyRmWatch 2] }) ∧
    Syscall.close ∉ (Close rmFailKernel watchingAB).2.log ∧
    Syscall.close ∈ (Close sameInodeKernel watchingAB).2.log := by
  decide

/-! ## The dispatch loop -/

/-- C3, on the code: after a read returning `eventA`, a drain, a read
returning `eventB` and a drain, the loop has sent `eventA` twice: the events
sent are not free of repetition and are not a prefix of the events read. -/
theorem C3_event_sent_twice :
    (loop NewWatcher twoReads).events = [eventA, eventA, eventB] ∧
    ¬ (loop NewWatcher twoReads).events.Nodup ∧
    ¬ (loop NewWatcher twoReads).events <+: [eventA, eventB] := by
  decide

theorem loopIter_pending_le (w : Watcher) (done : Bool) (read : Except Err (List Event)) :
    w.pending.length ≤ (loopIter w done read).pending.length := by
  unfold loopIter
  split
  · exact Nat.le_refl _
  · split
    · exact Nat.le_refl _
    · split
      · exact Nat.le_refl _
      · split
        · exact Nat.le_refl _
        · split
          · exact Nat.le_refl _
          · simp [setMore]

/-- C4, on the code: no iteration of the loop ever shortens `pending`, the
drain included; so after reads of `MaxEvents` events and of one event, each
followed by its drain, `pending` holds `MaxEvents + 1` events and the
following iterations call `Read` no more. -/
theorem C4_pending_never_drains :
    (∀ (w : Watcher) (done : Bool) (read : Except Err (List Event)),
      w.pending.length ≤ (loopIter w done read).pending.length) ∧
    (loop NewWatcher (fullRun.take 4)).pending.length = MaxEvents + 1 ∧
    (loop NewWatcher (fullRun.take 4)).reads = 2 ∧
    (loop NewWatcher fullRun).pending.length = MaxEvents + 1 ∧
    (loop NewWatcher fullRun).reads = 2 := by
  refine ⟨loopIter_pending_le, ?_, ?_, ?_, ?_⟩ <;>
    simp [fullRun, loop, loopIter, NewWatcher, setMore]

/-! ## `AddWatchRecursive` -/

theorem Grows.refl (D : List String) (s : Inotify) : Grows D s s :=
  ⟨fun _ h => h, fun _ _ => rfl⟩

theorem Grows.trans {D1 D2 D : List String} {s1 s2 s3 : Inotify}
    (h12 : Grows D1 s1 s2) (h23 : Grows D2 s2 s3)
    (hD1 : ∀ q ∈ D1, q ∈ D) (hD2 : ∀ q ∈ D2, q ∈ D) : Grows D s1 s3 :=
  ⟨fun q h => h23.1 q (h12.1 q h),
   fun q hq => by
     rw [h23.2 q (fun h => hq (hD2 q h)), h12.2 q (fun h => hq (hD1 q h))]⟩

theorem AddWatch_ok (clean : String → String) (k : Kernel) (i : Inotify) (path : String)
    (flags : Nat) (hk : ∀ log name fl, ∃ wd, k.inotifyAddWatch log name fl = .ok wd) :
    ∃ i1, AddWatch clean k i path flags = (none, i1) ∧ Grows [clean path] i i1 ∧
      (i1.watches.get (clean path)).isSome := by
  obtain ⟨wd, hwd⟩ := hk i.log (clean path) (if flags = 0 then IN_ALL_EVENTS else flags)
  have heq : AddWatch clean k i path flags = (none,
      { watches := i.watches.set (clean path) (toUint32 wd),
        rwatches := i.rwatches.set (toUint32 wd) (clean path),
        log := i.log ++ [Syscall.inotifyAddWatch (clean path)
          (if flags = 0 then IN_ALL_EVENTS else flags)] }) := by
    unfold AddWatch
    simp only [hwd]
  refine ⟨_, heq, ?_, ?_⟩
  · constructor
    · intro q hq
      by_cases h : q = clean path
      · subst h
        simp [GoMap.get_set_self]
      · simp only [GoMap.get_set_ne _ _ _ _ h]
        exact hq
    · intro q hq
      have h : q ≠ clean path := by simpa using hq
      simp only [GoMap.get_set_ne _ _ _ _ h]
  · simp [GoMap.get_set_self]

mutual
theorem walkDir_registers (clean : String → String) (join : String → String → String)
    (fn : WalkDirFunc Inotify)
    (recur : Inotify → String → Except Nat FsNode → Option (Option Err × Inotify))
    (path : String) (fuel : Nat)
    (hrec : ∀ (n : FsNode) (p : String) (s : Inotify), n.IsDir = true → n.readable = true →
      n.depth < fuel → Registers clean (n.dirPaths join p) s (recur s p (.ok n)))
    (h1 : ∀ info s, fn path info none s = some (none, s))
    (h2 : ∀ p nm s, p ≠ path → fn p (some (.file nm)) none s = some (none, s))
    (h3 : ∀ p d s s', p ≠ path → d.IsDir = true → recur s p (.ok d) = some (none, s') →
      fn p (some d) none s = some (none, s')) :
    ∀ (n : FsNode) (p : String) (s : Inotify), n.readable = true →
      (p = path ∨ n.depth < fuel) → n.depth ≤ fuel → (s.watches.get (clean path)).isSome →
      Registers clean (n.dirPaths join p) s (walkDir join fn p n s)
  | .file nm, p, s, _, _, _, _ => by
    refine ⟨s, ?_, Grows.refl _ _, ?_⟩
    · rw [walkDir]
      by_cases hp : p = path
      · rw [hp]; exact h1 _ _
      · exact h2 p nm s hp
    · intro d hd
      simp [FsNode.dirPaths] at hd
  | .dir nm rerr es, p, s, hread, hp, hdepth, hroot => by
    have hr : rerr = none ∧ readableEntries es = true := by
      simpa [FsNode.readable] using hread
    obtain ⟨hr1, hr2⟩ := hr
    subst hr1
    have hes : depthEntries es < fuel := by
      simp only [FsNode.depth] at hdepth
      omega
    have hfn : ∃ s1, fn p (some (.dir nm none es)) none s = some (none, s1) ∧
        Grows (((FsNode.dir nm none es).dirPaths join p).map clean) s s1 ∧
        (s1.watches.get (clean p)).isSome ∧ (s1.watches.get (clean path)).isSome := by
      by_cases hpp : p = path
      · subst hpp
        exact ⟨s, h1 _ _, Grows.refl _ _, hroot, hroot⟩
      · have hd : (FsNode.dir nm none es).depth < fuel := by
          rcases hp with h | h
          · exact absurd h hpp
          · exact h
        obtain ⟨s1, hs1, hg, hall⟩ := hrec (.dir nm none es) p s rfl hread hd
        exact ⟨s1, h3 p _ s s1 hpp rfl hs1, hg, hall p (by simp [FsNode.dirPaths]),
          hg.1 _ hroot⟩
    obtain ⟨s1, hs1, hg1, hp1, hroot1⟩ := hfn
    obtain ⟨s2, hs2, hg2, hall2⟩ :=
      walkEntries_registers clean join fn recur path fuel hrec h1 h2 h3 es p s1 hr2 hes hroot1
    refine ⟨s2, ?_, ?_, ?_⟩
    · rw [walkDir]
      simp only [hs1]
      exact hs2
    · apply Grows.trans hg1 hg2
      · intro q hq; exact hq
      · intro q hq
        simp only [FsNode.dirPaths, List.map_cons, List.mem_cons]
        exact Or.inr hq
    · intro d hd
      simp only [FsNode.dirPaths, List.mem_cons] at hd
      rcases hd with hd | hd
      · rw [hd]
        exact hg2.1 _ hp1
      · exact hall2 d hd
theorem walkEntries_registers (clean : String → String) (join : String → String → String)
    (fn : WalkDirFunc Inotify)
    (recur : Inotify → String → Except Nat FsNode → Option (Option Err × Inotify))
    (path : String) (fuel : Nat)
    (hrec : ∀ (n : FsNode) (p : String) (s : Inotify), n.IsDir = true → n.readable = true →
      n.depth < fuel → Registers clean (n.dirPaths join p) s (recur s p (.ok n)))
    (h1 : ∀ info s, fn path info none s = some (none, s))
    (h2 : ∀ p nm s, p ≠ path → fn p (some (.file nm)) none s = some (none, s))
    (h3 : ∀ p d s s', p ≠ path → d.IsDir = true → recur s p (.ok d) = some (none, s') →
      fn p (some d) none s = some (none, s')) :
    ∀ (es : List FsNode) (p : String) (s : Inotify), readableEntries es = true →
      depthEntries es < fuel → (s.watches.get (clean path)).isSome →
      Registers clean (dirPathsEntries join p es) s (walkEntries join fn p es s)
  | [], p, s, _, _, _ => by
    refine ⟨s, ?_, Grows.refl _ _, ?_⟩
    · rw [walkEntries]
    · intro d hd
      simp [dirPathsEntries] at hd
  | d1 :: rest, p, s, hread, hdepth, hroot => by
    have hr : d1.readable = true ∧ readableEntries rest = true := by
      simpa [readableEntries] using hread
    have hd : d1.depth < fuel ∧ depthEntries rest < fuel := by
      simp only [depthEntries] at hdepth
      omega
    obtain ⟨s1, hs1, hg1, hall1⟩ :=
      walkDir_registers clean join fn recur path fuel hrec h1 h2 h3 d1 (join p d1.Name) s
        hr.1 (Or.inr hd.1) (Nat.le_of_lt hd.1) hroot
    obtain ⟨s2, hs2, hg2, hall2⟩ :=
      walkEntries_registers clean join fn recur path fuel hrec h1 h2 h3 rest p s1
        hr.2 hd.2 (hg1.1 _ hroot)
    refine ⟨s2, ?_, ?_, ?_⟩
    · rw [walkEntries]
      simp only [hs1]
      exact hs2
    · apply Grows.trans hg1 hg2
      · intro q hq
        simp only [dirPathsEntries, List.map_append, List.mem_append]
        exact Or.inl hq
      · intro q hq
        simp only [dirPathsEntries, List.map_append, List.mem_append]
        exact Or.inr hq
    · intro d hd'
      simp only [dirPathsEntries, List.mem_append] at hd'
      rcases hd' with hd' | hd'
      · exact hg2.1 _ (hall1 d hd')
      · exact hall2 d hd'
end

theorem AddWatchRecursive_registers (clean : String → String)
    (join : String → String → String) (k : Kernel) (flags : Nat)
    (hk : ∀ log name fl, ∃ wd, k.inotifyAddWatch log name fl = .ok wd) (fuel : Nat) :
    ∀ (n : FsNode) (p : String) (s : Inotify), n.IsDir = true → n.readable = true →
      n.depth < fuel →
      Registers clean (n.dirPaths join p) s
        (AddWatchRecursive clean join k fuel s p (.ok n) flags) := by
  induction fuel with
  | zero => intro n p s _ _ h; exact absurd h (Nat.not_lt_zero _)
  | succ fuel ih =>
    intro n p s hdir hread hdepth
    obtain ⟨s1, hs1, hg1, hp1⟩ := AddWatch_ok clean k s p flags hk
    have hw := walkDir_registers clean join
      (fun q info err st =>
        match err with
        | some e =>
          if q = p then some (some (Err.accessing p (Err.errno e)), st)
          else some (none, st)
        | none =>
          if q = p then some (none, st)
          else
            match info with
            | some d =>
              if d.IsDir then
                match AddWatchRecursive clean join k fuel st q (.ok d) flags with
                | none => none
                | some (some e, st1) => some (some (Err.failedToWatch p e), st1)
                | some (none, st1) => some (none, st1)
              else some (none, st)
            | none => some (none, st))
      (fun st q t => AddWatchRecursive clean join k fuel st q t flags) p fuel ih
      (by intro info st; simp)
      (by intro q nm st hq; simp [hq, FsNode.IsDir])
      (by intro q d st st' hq hd hrec; simp [hq, hd, hrec])
      n p s1 hread (Or.inl rfl) (Nat.le_of_lt_succ hdepth) hp1
    obtain ⟨s2, hs2, hg2, hall2⟩ := hw
    refine ⟨s2, ?_, ?_, hall2⟩
    · rw [AddWatchRecursive]
      simp only [hs1, WalkDir]
      exact hs2
    · apply Grows.trans hg1 hg2
      · intro q hq
        cases n with
        | file nm => simp [FsNode.IsDir] at hdir
        | dir nm rerr es =>
          simp only [List.mem_singleton] at hq
          simp [FsNode.dirPaths, hq]
      · intro q hq; exact hq

/-- C8: for every finite directory tree found at a directory `path`, when
every kernel registration succeeds and no `ReadDir` of the traversal reports
an error, `AddWatchRecursive` (given the depth of the tree as fuel) returns
nil, and afterwards `watches` holds the cleaned path of the root and of every
directory below it, at every depth, while every other key of `watches` has
the entry it had, or none as before: a regular file of the tree, whose
cleaned path is that of no directory, is in `watches` only if it already was.
When `path` is a regular file the call returns what `AddWatch(path, flags)`
returns and leaves the notifier as that call does. -/
theorem C8_add_watch_recursive (clean : String → String) (join : String → String → String)
    (k : Kernel) (flags fuel : Nat) (i : Inotify) (path : String) (tree : FsNode)
    (hdir : tree.IsDir = true)
    (hk : ∀ log name fl, ∃ wd, k.inotifyAddWatch log name fl = .ok wd)
    (hread : tree.readable = true) (hfuel : tree.depth < fuel) :
    (∃ i', AddWatchRecursive clean join k fuel i path (.ok tree) flags = some (none, i') ∧
      (∀ d ∈ tree.dirPaths join path, (i'.watches.get (clean d)).isSome) ∧
      (∀ q, q ∉ (tree.dirPaths join path).map clean → i'.watches.get q = i.watches.get q)) ∧
    (∀ (k' : Kernel) (j : Inotify) (name : String),
      AddWatchRecursive clean join k' (fuel + 1) j path (.ok (.file name)) flags
        = some (AddWatch clean k' j path flags)) := by
  constructor
  · obtain ⟨i', h1, h2, h3⟩ :=
      AddWatchRecursive_registers clean join k flags hk fuel tree path i hdir hread hfuel
    exact ⟨i', h1, h3, h2.2⟩
  · intro k' j name
    rw [AddWatchRecursive]
    rcases h : AddWatch clean k' j path flags with ⟨e, j1⟩
    cases e with
    | some e => rfl
    | none => simp [WalkDir, walkDir]

theorem C8_add_watch_recursive_witness :
    (∃ i', AddWatchRecursive id slashJoin countingKernel 4 NewNotifier "r" (.ok sampleTree) 0
        = some (none, i') ∧
      (∀ d ∈ sampleTree.dirPaths slashJoin "r", (i'.watches.get (id d)).isSome) ∧
      (∀ q, q ∉ (sampleTree.dirPaths slashJoin "r").map id →
        i'.watches.get q = NewNotifier.watches.get q)) ∧
    sampleTree.dirPaths slashJoin "r" = ["r", "r/a", "r/a/b", "r/c"] :=
  ⟨(C8_add_watch_recursive id slashJoin countingKernel 0 4 NewNotifier "r" sampleTree
      (by decide) (fun log name _ => ⟨firstAdd log name 1, rfl⟩) (by decide) (by decide)).1,
   by decide⟩

/-! ## The loop of `Read` ends within its fuel -/

theorem decodeLoop_finishes (data : List Nat) (fuel : Nat) :
    ∀ (offset : Nat) (i : Inotify) (events : List Event),
      data.length ≤ offset + SizeofInotifyEvent * fuel →
      (decodeLoop data (fuel + 1) offset i events).1 ≠ .unfinished := by
  induction fuel with
  | zero =>
    intro offset i events h
    rw [decodeLoop]
    split
    · rename_i h'
      simp [SizeofInotifyEvent] at h h'
      omega
    · simp
  | succ fuel ih =>
    intro offset i events h
    rw [decodeLoop]
    split
    · dsimp only
      split
      · simp
      · split
        · rename_i o hname
          split at hname
          · unfold appendName at hname
            split at hname
            · cases hname; simp
            · split at hname
              · cases hname; simp
              · split at hname
                · cases hname; simp
                · cases hname
          · cases hname
        · apply ih
          simp [SizeofInotifyEvent] at h ⊢
          omega
    · simp

theorem Read_finishes (k : Kernel) (i : Inotify) : (Read k i).1 ≠ .unfinished := by
  unfold Read
  split
  · simp
  · dsimp only
    split
    · simp
    · apply decodeLoop_finishes
      simp [SizeofInotifyEvent]
      omega

/-! ## The self-delete record: the claim -/

theorem GoMap.get_of_get_delete {κ ν : Type} [DecidableEq κ] (m : GoMap κ ν) (k q : κ) (v : ν)
    (h : (m.delete k).get q = some v) : m.get q = some v := by
  by_cases hq : q = k
  · subst hq
    rw [GoMap.get_delete_self] at h
    cases h
  · rw [GoMap.get_delete_ne m k q hq] at h
    exact h

theorem selfDelete_rwatches_sub (i : Inotify) (wd mask w : Nat) (v : String)
    (h : (selfDelete i wd mask).rwatches.get w = some v) : i.rwatches.get w = some v := by
  unfold selfDelete at h
  split at h
  · split at h
    · exact GoMap.get_of_get_delete _ _ _ _ h
    · exact h
  · exact h

theorem selfDelete_watches_get (i : Inotify) (wd mask : Nat) (q : String)
    (h : mask &&& IN_DELETE_SELF = IN_DELETE_SELF → i.rwatches.get wd ≠ some q) :
    (selfDelete i wd mask).watches.get q = i.watches.get q := by
  unfold selfDelete
  split
  · rename_i name hname
    split
    · rename_i hm
      have hne : q ≠ name := by
        intro hq
        subst hq
        exact h hm hname
      exact GoMap.get_delete_ne _ _ _ hne
    · rfl
  · rfl

theorem decodeRecords_watches_get (q : String) (recs : List Record) :
    ∀ i : Inotify,
      (∀ s ∈ recs, s.mask &&& IN_DELETE_SELF = IN_DELETE_SELF → i.rwatches.get s.wd ≠ some q) →
      (decodeRecords i recs).2.watches.get q = i.watches.get q := by
  induction recs with
  | nil => intro i _; rfl
  | cons r rs ih =>
    intro i h
    have hrs : ∀ s ∈ rs, s.mask &&& IN_DELETE_SELF = IN_DELETE_SELF →
        (selfDelete i r.wd r.mask).rwatches.get s.wd ≠ some q := by
      intro s hs hm hget
      exact h s (List.mem_cons_of_mem _ hs) hm (selfDelete_rwatches_sub i r.wd r.mask _ _ hget)
    simp only [decodeRecords]
    rw [ih _ hrs, selfDelete_watches_get i r.wd r.mask q (h r (List.mem_cons_self _ _))]

theorem decodeRecords_rwatches_get (w : Nat) (recs : List Record) :
    ∀ i : Inotify,
      (∀ s ∈ recs, s.mask &&& IN_DELETE_SELF = IN_DELETE_SELF → s.wd ≠ w) →
      (decodeRecords i recs).2.rwatches.get w = i.rwatches.get w := by
  induction recs with
  | nil => intro i _; rfl
  | cons r rs ih =>
    intro i h
    simp only [decodeRecords]
    rw [ih _ (fun s hs => h s (List.mem_cons_of_mem _ hs)),
      selfDelete_rwatches_get i r.wd r.mask w
        (fun hm => (h r (List.mem_cons_self _ _) hm).symm)]

theorem decodeLoop_overflow (pre rest : List Nat) (wd mask cookie len fuel : Nat) (i : Inotify)
    (events : List Event) (hmask : mask < 2 ^ 32) (hov : mask &&& IN_Q_OVERFLOW ≠ 0) :
    decodeLoop (pre ++ (encHeader wd mask cookie len ++ rest)) (fuel + 1) pre.length i events
      = (.fail .eventOverflow, i) := by
  have h2 : u32At (pre ++ (encHeader wd mask cookie len ++ rest)) (pre.length + 4) = mask := by
    rw [u32At_append, u32At_header_mask _ _ _ _ _ hmask]
  have h4 : pre.length + SizeofInotifyEvent
      ≤ (pre ++ (encHeader wd mask cookie len ++ rest)).length := by
    simp [encHeader_length, SizeofInotifyEvent]
  rw [decodeLoop]
  simp only [h2, h4, if_true, hov, ne_eq, not_false_eq_true]

/-- The tables after `Read` of a buffer of well-formed records, ended by
nothing, by less than a header or by an overflow record. -/
theorem Read_state (k : Kernel) (i : Inotify) (recs : List Record) (tail : List Nat)
    (hread : k.read i.log = .ok (encodeAll recs ++ tail))
    (hlen : (encodeAll recs ++ tail).length ≤ bufLen)
    (h16 : SizeofInotifyEvent ≤ (encodeAll recs ++ tail).length)
    (hwf : ∀ r ∈ recs, r.WellFormed ∧ r.mask &&& IN_Q_OVERFLOW = 0)
    (hend : EndsRead tail) :
    (Read k i).2 = (decodeRecords { i with log := i.log ++ [Syscall.read] } recs).2 := by
  have hge := encodeAll_length_ge recs
  have hfuel : (encodeAll recs ++ tail).length + 1 - recs.length
      = ((encodeAll recs ++ tail).length - recs.length) + 1 := by
    simp [SizeofInotifyEvent] at hge ⊢
    omega
  rw [Read_records k i recs tail hread hlen h16 hwf, hfuel]
  rcases hend with hshort | ⟨wd, mask, cookie, len, rest, htail, hmask, hov⟩
  · rw [decodeLoop_end _ _ _ _ _ (by simp; omega)]
  · subst htail
    rw [decodeLoop_overflow _ _ _ _ _ _ _ _ _ hmask hov]

/-- C6, as stated, fails: in the tables left by `AddWatch("a")` and
`AddWatch("b")` both answered with the identifier 1, the path "a" is in
`watches` with the identifier 1; after `Read` has decoded the self-delete
record of the identifier 1, "a" is still in `watches`, and `RemoveWatch("a")`
issues `inotify_rm_watch` and changes the tables. -/
theorem C6_counterexample :
    runCalls id sameInodeKernel NewNotifier [.add "a" 0, .add "b" 0] = sharedWd ∧
    sharedWd.watches.get "a" = some 1 ∧
    selfDeleteOne.mask &&& IN_DELETE_SELF = IN_DELETE_SELF ∧
    (Read (readKernel (encodeAll [selfDeleteOne, ignoredOne])) sharedWd).1
      = .ok [{ Name := "b", Op := IN_DELETE_SELF }, { Name := "", Op := IN_IGNORED }] ∧
    (Read (readKernel (encodeAll [selfDeleteOne, ignoredOne])) sharedWd).2.watches.get "a"
      = some 1 ∧
    Syscall.inotifyRmWatch 1 ∈
      (RemoveWatch id sameInodeKernel
        (Read (readKernel (encodeAll [selfDeleteOne, ignoredOne])) sharedWd).2 "a").2.log ∧
    RemoveWatch id sameInodeKernel
        (Read (readKernel (encodeAll [selfDeleteOne, ignoredOne])) sharedWd).2 "a"
      ≠ (none, (Read (readKernel (encodeAll [selfDeleteOne, ignoredOne])) sharedWd).2) := by
  decide

/-- C6, amended: for every table state in which the path `p` is registered
with the identifier `wd` in both tables (`watches` holds `p` with `wd` and
`rwatches` holds `wd` with `p`), once `Read` has decoded a record with the
identifier `wd` whose mask includes `IN_DELETE_SELF` (anywhere in a buffer,
after well-formed records and before any bytes), `p` is absent from `watches`
and `wd` from `rwatches`, and `RemoveWatch` on a name of `p` returns nil and
leaves the notifier as it is, with no kernel call. And in every buffer of
well-formed records (ended by nothing, by less than a header or by an
overflow record) every other table entry is unchanged, unless another
self-delete record of that buffer purges it: the entry of a path `q` other
than `p` is as before when no other self-delete record has an identifier
registered for `q`, the entry of an identifier `w` other than `wd` is as
before when no other self-delete record has the identifier `w`. -/
theorem C6_self_delete (clean : String → String) (k k' : Kernel) (i : Inotify) (p : String)
    (wd : Nat) (pre : List Record) (r : Record) (rest : List Nat)
    (hreg : i.watches.get p = some wd ∧ i.rwatches.get wd = some p)
    (hread : k.read i.log = .ok (encodeAll pre ++ (r.encode ++ rest)))
    (hlen : (encodeAll pre ++ (r.encode ++ rest)).length ≤ bufLen)
    (hpre : ∀ q ∈ pre, q.WellFormed ∧ q.mask &&& IN_Q_OVERFLOW = 0)
    (hr : r.WellFormed ∧ r.mask &&& IN_Q_OVERFLOW = 0)
    (hwd : r.wd = wd) (hself : r.mask &&& IN_DELETE_SELF = IN_DELETE_SELF) :
    (Read k i).2.watches.get p = none ∧
    (Read k i).2.rwatches.get wd = none ∧
    (∀ name, clean name = p → RemoveWatch clean k' (Read k i).2 name = (none, (Read k i).2)) ∧
    (∀ (post : List Record) (tail : List Nat), rest = encodeAll post ++ tail →
      (∀ s ∈ post, s.WellFormed ∧ s.mask &&& IN_Q_OVERFLOW = 0) → EndsRead tail →
      (∀ q, q ≠ p →
        (∀ s ∈ pre ++ post, s.mask &&& IN_DELETE_SELF = IN_DELETE_SELF →
          i.rwatches.get s.wd ≠ some q) →
        (Read k i).2.watches.get q = i.watches.get q) ∧
      (∀ w, w ≠ wd →
        (∀ s ∈ pre ++ post, s.mask &&& IN_DELETE_SELF = IN_DELETE_SELF → s.wd ≠ w) →
        (Read k i).2.rwatches.get w = i.rwatches.get w)) := by
  subst hwd
  have hall : ∀ q ∈ pre ++ [r], q.WellFormed ∧ q.mask &&& IN_Q_OVERFLOW = 0 := by
    intro q hq
    rcases List.mem_append.mp hq with h | h
    · exact hpre q h
    · rw [List.mem_singleton.mp h]
      exact hr
  have hdata : encodeAll pre ++ (r.encode ++ rest) = encodeAll (pre ++ [r]) ++ rest := by
    simp [encodeAll_append, encodeAll, List.append_assoc]
  have h16 : SizeofInotifyEvent ≤ (encodeAll (pre ++ [r]) ++ rest).length := by
    simp [encodeAll_append, encodeAll, Record.encode_length, SizeofInotifyEvent]
    omega
  have hR := Read_records k i (pre ++ [r]) rest (hdata ▸ hread) (hdata ▸ hlen) h16 hall
  have hst : (decodeRecords { i with log := i.log ++ [Syscall.read] } (pre ++ [r])).2
      = selfDelete (decodeRecords { i with log := i.log ++ [Syscall.read] } pre).2
          r.wd r.mask := by
    rw [decodeRecords_append]
    simp [decodeRecords]
  have hgone : Gone p r.wd (Read k i).2 := by
    rw [hR]
    apply decodeLoop_gone
    rw [hst]
    apply selfDelete_purges p r.wd _ r.mask _ hself
    apply decodeRecords_pairOrGone
    exact Or.inl hreg.2
  refine ⟨hgone.2, hgone.1, ?_, ?_⟩
  · intro name hname
    apply RemoveWatch_absent
    rw [hname]
    exact hgone.2
  · intro post tail hrest hpost hend
    subst hrest
    have hall' : ∀ q ∈ pre ++ r :: post, q.WellFormed ∧ q.mask &&& IN_Q_OVERFLOW = 0 := by
      intro q hq
      rcases List.mem_append.mp hq with h | h
      · exact hpre q h
      · rcases List.mem_cons.mp h with h | h
        · rw [h]; exact hr
        · exact hpost q h
    have hdata' : encodeAll pre ++ (r.encode ++ (encodeAll post ++ tail))
        = encodeAll (pre ++ r :: post) ++ tail := by
      simp [encodeAll_append, encodeAll, List.append_assoc]
    have h16' : SizeofInotifyEvent ≤ (encodeAll (pre ++ r :: post) ++ tail).length := by
      simp [encodeAll_append, encodeAll, Record.encode_length, SizeofInotifyEvent]
      omega
    have hS := Read_state k i (pre ++ r :: post) tail (hdata' ▸ hread) (hdata' ▸ hlen) h16'
      hall' hend
    constructor
    · intro q hq hothers
      rw [hS]
      apply decodeRecords_watches_get
      intro s hs hm
      rcases List.mem_append.mp hs with h | h
      · exact hothers s (List.mem_append_left _ h) hm
      · rcases List.mem_cons.mp h with h | h
        · rw [h]
          show i.rwatches.get r.wd ≠ some q
          rw [hreg.2]
          intro hpq
          exact hq (Option.some.inj hpq).symm
        · exact hothers s (List.mem_append_right _ h) hm
    · intro w hw hothers
      rw [hS]
      apply decodeRecords_rwatches_get
      intro s hs hm
      rcases List.mem_append.mp hs with h | h
      · exact hothers s (List.mem_append_left _ h) hm
      · rcases List.mem_cons.mp h with h | h
        · rw [h]
          exact fun h' => hw h'.symm
        · exact hothers s (List.mem_append_right _ h) hm

theorem C6_self_delete_witness :
    (Read (readKernel (encodeAll [createB] ++
        (selfDeleteOne.encode ++ (encodeAll [ignoredOne] ++ [])))) watchingAB).2.watches.get "a"
      = none ∧
    (Read (readKernel (encodeAll [createB] ++
        (selfDeleteOne.encode ++ (encodeAll [ignoredOne] ++ [])))) watchingAB).2.rwatches.get 1
      = none ∧
    (Read (readKernel (encodeAll [createB] ++
        (selfDeleteOne.encode ++ (encodeAll [ignoredOne] ++ [])))) watchingAB).2.watches.get "b"
      = watchingAB.watches.get "b" ∧
    (Read (readKernel (encodeAll [createB] ++
        (selfDeleteOne.encode ++ (encodeAll [ignoredOne] ++ [])))) watchingAB).2.rwatches.get 2
      = watchingAB.rwatches.get 2 ∧
    watchingAB.watches.get "b" = some 2 :=
  ⟨(C6_self_delete id (readKernel _) sameInodeKernel watchingAB "a" 1 [createB]
      selfDeleteOne (encodeAll [ignoredOne] ++ []) (by decide) rfl (by decide) (by decide)
      (by decide) rfl (by decide)).1,
   (C6_self_delete id (readKernel _) sameInodeKernel watchingAB "a" 1 [createB]
      selfDeleteOne (encodeAll [ignoredOne] ++ []) (by decide) rfl (by decide) (by decide)
      (by decide) rfl (by decide)).2.1,
   ((C6_self_delete id (readKernel _) sameInodeKernel watchingAB "a" 1 [createB]
      selfDeleteOne (encodeAll [ignoredOne] ++ []) (by decide) rfl (by decide) (by decide)
      (by decide) rfl (by decide)).2.2.2 [ignoredOne] [] rfl (by decide)
      (Or.inl (by decide))).1 "b" (by decide) (by decide),
   ((C6_self_delete id (readKernel _) sameInodeKernel watchingAB "a" 1 [createB]
      selfDeleteOne (encodeAll [ignoredOne] ++ []) (by decide) rfl (by decide) (by decide)
      (by decide) rfl (by decide)).2.2.2 [ignoredOne] [] rfl (by decide)
      (Or.inl (by decide))).2 2 (by decide) (by decide),
   by decide⟩

end Fsnotify
